import Mathlib

/-!
# Verification of the Stan's World local dev server

This development is a shallow embedding of `server.js`: the `/save-projects`
document patcher (marker lookup, bracket-counting scan, splice, auxiliary
`bg`/`title` substitutions), the JSON serialization it relies on
(`JSON.stringify(v, null, 2)` and `JSON.parse`), and the static file
resolver with its root-escape check.  Documents and strings are modelled as
`List Char`; machine integers do not occur.
-/

namespace StansWorld

/-! ## Basic string machinery -/

/-- First index (if any) at which `pat` occurs as a contiguous substring of
`s`; models JavaScript `String.prototype.indexOf` (for nonempty `pat`). -/
def firstOccur (pat : List Char) : List Char → Option Nat
  | [] => if pat.isEmpty then some 0 else none
  | s@(_ :: rest) =>
    if pat.isPrefixOf s then some 0 else (firstOccur pat rest).map Nat.succ

/-- `pat` occurs in `s` starting at index `j`. -/
def occursAt (pat s : List Char) (j : Nat) : Prop :=
  pat.isPrefixOf (s.drop j) = true

instance (pat s : List Char) (j : Nat) : Decidable (occursAt pat s j) := by
  unfold occursAt; infer_instance

/-- The bracket-counting loop of the patcher (`server.js` lines 85-89):
starting at an opening bracket, walk forward incrementing the depth on `[`
and decrementing on `]`; the returned offset is where the depth first
returns to zero, or `none` if it never does. -/
def scanClose : List Char → Int → Option Nat
  | [], _ => none
  | c :: rest, depth =>
    if c = '[' then (scanClose rest (depth + 1)).map Nat.succ
    else if c = ']' then
      if depth - 1 = 0 then some 0 else (scanClose rest (depth - 1)).map Nat.succ
    else (scanClose rest depth).map Nat.succ

/-! ## The JSON value model

Payload records are JSON values.  Numbers are modelled as integers (the
payloads at issue are plain records; float formatting is orthogonal to
every claim treated here). -/

inductive Json where
  | null
  | bool (b : Bool)
  | num (n : Int)
  | str (s : List Char)
  | arr (xs : List Json)
  | obj (fs : List (List Char × Json))

instance : Inhabited Json := ⟨Json.null⟩

/-- Decimal digit character. -/
def digitChar10 : Nat → Char
  | 0 => '0' | 1 => '1' | 2 => '2' | 3 => '3' | 4 => '4'
  | 5 => '5' | 6 => '6' | 7 => '7' | 8 => '8' | _ => '9'

/-- Lower-case hexadecimal digit character. -/
def hexChar16 : Nat → Char
  | 0 => '0' | 1 => '1' | 2 => '2' | 3 => '3' | 4 => '4'
  | 5 => '5' | 6 => '6' | 7 => '7' | 8 => '8' | 9 => '9'
  | 10 => 'a' | 11 => 'b' | 12 => 'c' | 13 => 'd' | 14 => 'e' | _ => 'f'

/-- Decimal digits, with explicit fuel (any fuel above the number works). -/
def natToCharsAux : Nat → Nat → List Char
  | 0, _ => []
  | fuel + 1, n =>
    if n < 10 then [digitChar10 n]
    else natToCharsAux fuel (n / 10) ++ [digitChar10 (n % 10)]

/-- Decimal digits of a natural number, most significant first. -/
def natToChars (n : Nat) : List Char :=
  natToCharsAux (n + 1) n

/-- Decimal rendering of an integer, as `Number.prototype.toString`. -/
def intToChars (n : Int) : List Char :=
  if n < 0 then '-' :: natToChars n.natAbs else natToChars n.natAbs

/-- How `JSON.stringify` escapes one character inside a string literal. -/
def escapeChar (c : Char) : List Char :=
  if c = '"' then ['\\', '"']
  else if c = '\\' then ['\\', '\\']
  else if c = '\x08' then ['\\', 'b']
  else if c = '\t' then ['\\', 't']
  else if c = '\n' then ['\\', 'n']
  else if c = '\x0c' then ['\\', 'f']
  else if c = '\r' then ['\\', 'r']
  else if c.toNat < 32 then
    ['\\', 'u', '0', '0', hexChar16 (c.toNat / 16), hexChar16 (c.toNat % 16)]
  else [c]

/-- `JSON.stringify` escaping of a whole string body. -/
def escape (s : List Char) : List Char :=
  s.foldr (fun c acc => escapeChar c ++ acc) []

/-- Newline plus `ind` spaces: the separator `JSON.stringify(v, null, 2)`
emits before an element printed at indentation `ind`. -/
def nlInd (ind : Nat) : List Char :=
  '\n' :: List.replicate ind ' '

mutual

/-- `JSON.stringify(v, null, 2)` at current indentation `ind` (the server
serializes the payload with `JSON.stringify(projects, null, 2)`). -/
def stringifyAt : Nat → Json → List Char
  | _, .null => "null".toList
  | _, .bool true => "true".toList
  | _, .bool false => "false".toList
  | _, .num n => intToChars n
  | _, .str s => '"' :: (escape s ++ ['"'])
  | _, .arr [] => ['[', ']']
  | ind, .arr (x :: xs) => '[' :: (stringifyItems ind (x :: xs) ++ nlInd ind ++ [']'])
  | _, .obj [] => ['\x7b', '\x7d']
  | ind, .obj (f :: fs) => '\x7b' :: (stringifyFields ind (f :: fs) ++ nlInd ind ++ ['\x7d'])

/-- Array elements of `JSON.stringify(·, null, 2)`: each element on its own
line at indentation `ind + 2`, separated by commas. -/
def stringifyItems : Nat → List Json → List Char
  | _, [] => []
  | ind, [x] => nlInd (ind + 2) ++ stringifyAt (ind + 2) x
  | ind, x :: y :: xs =>
    nlInd (ind + 2) ++ stringifyAt (ind + 2) x ++ [','] ++ stringifyItems ind (y :: xs)

/-- Object members of `JSON.stringify(·, null, 2)`. -/
def stringifyFields : Nat → List (List Char × Json) → List Char
  | _, [] => []
  | ind, [(k, v)] =>
    nlInd (ind + 2) ++ ('"' :: (escape k ++ ['"', ':', ' '])) ++ stringifyAt (ind + 2) v
  | ind, (k, v) :: g :: fs =>
    nlInd (ind + 2) ++ ('"' :: (escape k ++ ['"', ':', ' '])) ++ stringifyAt (ind + 2) v
      ++ [','] ++ stringifyFields ind (g :: fs)

end

mutual

/-- Payloads whose strings (values and object keys) contain no bracket
characters; for such payloads every `[`/`]` in the serialized literal is
structural. -/
def cleanB : Json → Bool
  | .null => true
  | .bool _ => true
  | .num _ => true
  | .str s => !(s.contains '[') && !(s.contains ']')
  | .arr xs => cleanL xs
  | .obj fs => cleanF fs

/-- Bracket-cleanliness of an element list. -/
def cleanL : List Json → Bool
  | [] => true
  | x :: xs => cleanB x && cleanL xs

/-- Bracket-cleanliness of a member list (keys included). -/
def cleanF : List (List Char × Json) → Bool
  | [] => true
  | (k, v) :: fs => ((!(k.contains '[') && !(k.contains ']')) && cleanB v) && cleanF fs

end

/-! ## A model of `JSON.parse`

The handler never calls `JSON.parse` on the serialized literal itself, but
the spec's round-trip law speaks about what the embedded literal
*deserializes* to, so we model the standard JSON grammar (restricted to
integer numerals, matching the integer number model above). -/

/-- JSON insignificant whitespace. -/
def isWsChar (c : Char) : Bool :=
  c = ' ' || c = '\t' || c = '\n' || c = '\r'

/-- Drop leading JSON whitespace. -/
def skipWs : List Char → List Char
  | [] => []
  | c :: rest => if isWsChar c then skipWs rest else c :: rest

/-- Decimal digit test. -/
def isDigit10 (c : Char) : Bool :=
  48 ≤ c.toNat && c.toNat ≤ 57

/-- Value of a decimal digit character. -/
def digitVal10 (c : Char) : Nat := c.toNat - 48

/-- Split off the longest leading run of decimal digits. -/
def takeDigits : List Char → List Char × List Char
  | [] => ([], [])
  | c :: rest =>
    if isDigit10 c then
      let (ds, r) := takeDigits rest
      (c :: ds, r)
    else ([], c :: rest)

/-- Numeric value of a digit string, most significant first. -/
def digitsVal (ds : List Char) : Nat :=
  ds.foldl (fun a c => a * 10 + digitVal10 c) 0

/-- Whether the head of `s` (if any) is not a decimal digit: the condition
under which a numeral followed by `s` parses back without absorbing
characters of `s`. -/
def headNotDigit (s : List Char) : Bool :=
  match s with
  | [] => true
  | c :: _ => !isDigit10 c

/-- Parse an integer numeral (optional minus sign, then digits). -/
def parseNum (s : List Char) : Option (Int × List Char) :=
  if s.head? = some '-' then
    match takeDigits (s.drop 1) with
    | ([], _) => none
    | (ds, rest) => some (-(digitsVal ds : Int), rest)
  else
    match takeDigits s with
    | ([], _) => none
    | (ds, rest) => some ((digitsVal ds : Int), rest)

/-- Value of a (lower- or upper-case) hexadecimal digit character. -/
def hexVal16 (c : Char) : Nat :=
  if isDigit10 c then c.toNat - 48
  else if 97 ≤ c.toNat && c.toNat ≤ 102 then c.toNat - 87
  else if 65 ≤ c.toNat && c.toNat ≤ 70 then c.toNat - 55
  else 16

/-- Hexadecimal digit test. -/
def isHex16 (c : Char) : Bool :=
  isDigit10 c || (97 ≤ c.toNat && c.toNat ≤ 102) || (65 ≤ c.toNat && c.toNat ≤ 70)

/-- Parse the body of a JSON string literal (the opening quote already
consumed), un-escaping as `JSON.parse` does. -/
def parseStr : List Char → Option (List Char × List Char)
  | [] => none
  | c :: rest =>
    if c = '"' then some ([], rest)
    else if c = '\\' then
      match rest with
      | [] => none
      | e :: r1 =>
        if e = '"' then (parseStr r1).map (fun p => ('"' :: p.1, p.2))
        else if e = '\\' then (parseStr r1).map (fun p => ('\\' :: p.1, p.2))
        else if e = '/' then (parseStr r1).map (fun p => ('/' :: p.1, p.2))
        else if e = 'b' then (parseStr r1).map (fun p => ('\x08' :: p.1, p.2))
        else if e = 'f' then (parseStr r1).map (fun p => ('\x0c' :: p.1, p.2))
        else if e = 'n' then (parseStr r1).map (fun p => ('\n' :: p.1, p.2))
        else if e = 'r' then (parseStr r1).map (fun p => ('\r' :: p.1, p.2))
        else if e = 't' then (parseStr r1).map (fun p => ('\t' :: p.1, p.2))
        else if e = 'u' then
          match r1 with
          | a :: b :: c2 :: d :: r =>
            if isHex16 a && isHex16 b && isHex16 c2 && isHex16 d then
              (parseStr r).map (fun p =>
                (Char.ofNat
                    (((hexVal16 a * 16 + hexVal16 b) * 16 + hexVal16 c2) * 16 + hexVal16 d)
                  :: p.1, p.2))
            else none
          | _ => none
        else none
    else if c.toNat < 32 then none
    else (parseStr rest).map (fun p => (c :: p.1, p.2))

mutual

/-- Parse one JSON value; `fuel` bounds the nesting depth explored. -/
def parseVal : Nat → List Char → Option (Json × List Char)
  | 0, _ => none
  | Nat.succ f, s =>
    match skipWs s with
    | [] => none
    | c :: r => parseCore f c r
  termination_by f _ => (f, 0)

/-- Parse a value whose first significant character is `c`, followed by `r`. -/
def parseCore (f : Nat) (c : Char) (r : List Char) : Option (Json × List Char) :=
  if c = 'n' then
    if "ull".toList.isPrefixOf r then some (.null, r.drop 3) else none
  else if c = 't' then
    if "rue".toList.isPrefixOf r then some (.bool true, r.drop 3) else none
  else if c = 'f' then
    if "alse".toList.isPrefixOf r then some (.bool false, r.drop 4) else none
  else if c = '"' then (parseStr r).map (fun p => (.str p.1, p.2))
  else if c = '[' then
    if (skipWs r).head? = some ']' then some (.arr [], (skipWs r).tail)
    else (parseItems f r).map (fun p => (.arr p.1, p.2))
  else if c = '\x7b' then
    if (skipWs r).head? = some '\x7d' then some (.obj [], (skipWs r).tail)
    else (parseFields f r).map (fun p => (.obj p.1, p.2))
  else if c = '-' || isDigit10 c then
    (parseNum (c :: r)).map (fun p => (.num p.1, p.2))
  else none
  termination_by (f, 2)

/-- Parse a nonempty comma-separated element list up to the closing `]`. -/
def parseItems : Nat → List Char → Option (List Json × List Char)
  | 0, _ => none
  | Nat.succ f, s =>
    match parseVal f s with
    | none => none
    | some (v, rest) => itemsTail f v rest
  termination_by f _ => (f, 1)

/-- Continue an element list after one parsed element. -/
def itemsTail (f : Nat) (v : Json) (rest : List Char) : Option (List Json × List Char) :=
  if (skipWs rest).head? = some ',' then
    (parseItems f (skipWs rest).tail).map (fun p => (v :: p.1, p.2))
  else if (skipWs rest).head? = some ']' then some ([v], (skipWs rest).tail)
  else none
  termination_by (f, 2)

/-- Parse a nonempty comma-separated member list up to the closing brace. -/
def parseFields : Nat → List Char → Option (List (List Char × Json) × List Char)
  | 0, _ => none
  | Nat.succ f, s =>
    match skipWs s with
    | [] => none
    | c :: r => fieldsCore f c r
  termination_by f _ => (f, 1)

/-- Parse one member whose first significant character is `c`. -/
def fieldsCore (f : Nat) (c : Char) (r : List Char) :
    Option (List (List Char × Json) × List Char) :=
  if c = '"' then
    match parseStr r with
    | none => none
    | some (k, r2) => fieldsColon f k r2
  else none
  termination_by (f, 4)

/-- Continue a member after its parsed key: expect `:` and the value. -/
def fieldsColon (f : Nat) (k : List Char) (r2 : List Char) :
    Option (List (List Char × Json) × List Char) :=
  if (skipWs r2).head? = some ':' then
    match parseVal f (skipWs r2).tail with
    | none => none
    | some (v, r4) => fieldsTail f k v r4
  else none
  termination_by (f, 3)

/-- Continue a member list after one parsed member. -/
def fieldsTail (f : Nat) (k : List Char) (v : Json) (r4 : List Char) :
    Option (List (List Char × Json) × List Char) :=
  if (skipWs r4).head? = some ',' then
    (parseFields f (skipWs r4).tail).map (fun p => ((k, v) :: p.1, p.2))
  else if (skipWs r4).head? = some '\x7d' then some ([(k, v)], (skipWs r4).tail)
  else none
  termination_by (f, 2)

end

/-- Parse a complete JSON document (whitespace-padded single value), as
`JSON.parse`. -/
def jsonParse (s : List Char) : Option Json :=
  match parseVal (s.length + 1) s with
  | some (v, rest) => if (skipWs rest).isEmpty then some v else none
  | none => none

mutual

/-- Fuel sufficient for `parseVal` on (the serialization of) `v`. -/
def needVal : Json → Nat
  | .null => 1
  | .bool _ => 1
  | .num _ => 1
  | .str _ => 1
  | .arr [] => 1
  | .arr (x :: xs) => 1 + needItems (x :: xs)
  | .obj [] => 1
  | .obj (f :: fs) => 1 + needFields (f :: fs)

/-- Fuel sufficient for `parseItems` on a serialized element list. -/
def needItems : List Json → Nat
  | [] => 1
  | x :: xs => 1 + max (needVal x) (needItems xs)

/-- Fuel sufficient for `parseFields` on a serialized member list. -/
def needFields : List (List Char × Json) → Nat
  | [] => 1
  | (_, v) :: fs => 1 + max (needVal v) (needFields fs)

end

/-- Bracket balance of a character list: as many `]` as `[` overall, and no
prefix closes more brackets than it opens.  This is the invariant that
makes the raw bracket-counting scan land on the structural close. -/
def balanced (s : List Char) : Prop :=
  s.count ']' = s.count '[' ∧ ∀ k, (s.take k).count ']' ≤ (s.take k).count '['

/-! ## The document patcher (`server.js` lines 70-97) -/

/-- The anchor text locating the named literal. -/
def anchor : List Char := "const PROJECTS".toList

/-- Text spliced in before the serialized payload:
`` `const PROJECTS = ${newArray};` `` minus the payload and terminator. -/
def assignHead : List Char := "const PROJECTS = ".toList

inductive PatchOut where
  | markerNotFound
  | openBracketNotFound
  | unbalanced
  | ok (res : List Char)
  deriving DecidableEq

/-- End (exclusive) of the region the patcher removes: the close bracket
sits at `m + rel + relC`; the region extends one further character when a
`;` immediately follows (`server.js` line 96). -/
def endPosOf (html : List Char) (m rel relC : Nat) : Nat :=
  if (html.drop (m + rel + relC + 1)).head? = some ';' then m + rel + relC + 2
  else m + rel + relC + 1

/-- The pure patch pipeline: locate `const PROJECTS`, find the first `[` at
or after it, bracket-count to the close, extend over one trailing `;`,
splice in the new serialized array. -/
def patchCore (html newArray : List Char) : PatchOut :=
  match firstOccur anchor html with
  | none => .markerNotFound
  | some marker =>
    match firstOccur ['['] (html.drop marker) with
    | none => .openBracketNotFound
    | some rel =>
      match scanClose (html.drop (marker + rel)) 0 with
      | none => .unbalanced
      | some relC =>
        .ok (html.take marker ++ assignHead ++ newArray ++ [';']
          ++ html.drop (endPosOf html marker rel relC))

/-! ## Auxiliary substitutions (`server.js` lines 100-113) -/

/-- `url(` -- the fixed head of the background-image pattern. -/
def urlOpen : List Char := ['u', 'r', 'l', '(']

/-- The fixed original background filename the regex looks for. -/
def bgFile : List Char := "Desk_Image.png".toList

/-- Quote characters admitted by the pattern `['"]?`. -/
def isQuoteChar (c : Char) : Bool :=
  c = '\'' || c = '"'

/-- Length of the optional-quote match `['"]?` at the head of `s`. -/
def matchQuote (s : List Char) : Nat :=
  match s with
  | [] => 0
  | c :: _ => if isQuoteChar c then 1 else 0

/-- Match length contributed past the filename: the optional closing quote
and the mandatory `)`. `q1` is the opening-quote length already matched. -/
def matchTail (q1 : Nat) (t3 : List Char) : Nat :=
  match t3 with
  | [] => 0
  | c :: rest =>
    if isQuoteChar c then (if rest.head? = some ')' then 20 + q1 else 0)
    else if c = ')' then 19 + q1
    else 0

/-- Length of the match of `/url\(['"]?Desk_Image\.png['"]?\)/` at the head
of `s`, or `0` when there is no match there.  (The regex is deterministic:
each optional quote either matches a quote character or nothing, and
backtracking can never succeed where this direct reading fails, because a
quote character can begin neither `Desk_Image.png` nor `)`.) -/
def matchLen (s : List Char) : Nat :=
  if urlOpen.isPrefixOf s then
    if bgFile.isPrefixOf ((s.drop 4).drop (matchQuote (s.drop 4))) then
      matchTail (matchQuote (s.drop 4)) (((s.drop 4).drop (matchQuote (s.drop 4))).drop 14)
    else 0
  else 0

/-- The fully-quoted original background reference `url('Desk_Image.png')`,
as emitted by the replacement itself. -/
def explicitPat : List Char := urlOpen ++ '\'' :: (bgFile ++ ['\'', ')'])

/-- JavaScript `String.prototype.replace` replacement-pattern expansion:
`$$`, `$&`, `` $` `` and `$'` are special (this regex has no capture
groups, so `$n` and `$<name>` stay literal). `matched` is the matched
substring, `pre`/`post` the document before/after the match. -/
def expandRepl (matched pre post : List Char) : List Char → List Char
  | [] => []
  | c :: r =>
    if c = '$' then
      match r with
      | [] => ['$']
      | d :: r2 =>
        if d = '$' then '$' :: expandRepl matched pre post r2
        else if d = '&' then matched ++ expandRepl matched pre post r2
        else if d = Char.ofNat 96 then pre ++ expandRepl matched pre post r2
        else if d = '\'' then post ++ expandRepl matched pre post r2
        else '$' :: expandRepl matched pre post (d :: r2)
    else c :: expandRepl matched pre post r

/-- The replacement text `` `url('${bg}')` `` before `$`-expansion. -/
def bgRepl (bg : List Char) : List Char :=
  "url('".toList ++ bg ++ "')".toList

/-- Global regex replacement
`replaced.replace(/url\(['"]?Desk_Image\.png['"]?\)/g, ...)`: scan left to
right, replacing every non-overlapping match.  `pre` accumulates the
document text already passed (needed for `` $` ``). -/
def bgReplaceAux (bg pre : List Char) (s : List Char) : List Char :=
  match s with
  | [] => []
  | c :: rest =>
    if _h : matchLen (c :: rest) = 0 then c :: bgReplaceAux bg (pre ++ [c]) rest
    else
      expandRepl ((c :: rest).take (matchLen (c :: rest))) pre
          ((c :: rest).drop (matchLen (c :: rest))) (bgRepl bg)
        ++ bgReplaceAux bg (pre ++ (c :: rest).take (matchLen (c :: rest)))
            ((c :: rest).drop (matchLen (c :: rest)))
  termination_by s.length
  decreasing_by
  · simp
  · have hn : 0 < matchLen (c :: rest) := Nat.pos_of_ne_zero _h
    simp
    omega

/-- Background substitution entry point. -/
def bgReplace (bg : List Char) (s : List Char) : List Char :=
  bgReplaceAux bg [] s

/-- Line-terminator test for the regex `.` (which does not match newlines). -/
def isNlChar (c : Char) : Bool :=
  c = '\n' || c = '\r' || c = '\u2028' || c = '\u2029'

/-- Length up to and including a closing `</title>`, crossing only
non-newline characters (the lazy `.*?` of `/<title>.*?<\/title>/`). -/
def titleClose (s : List Char) : Option Nat :=
  if "</title>".toList.isPrefixOf s then some 8
  else
    match s with
    | [] => none
    | c :: rest => if isNlChar c then none else (titleClose rest).map Nat.succ

/-- Match length of `/<title>.*?<\/title>/` at the head of `s`. -/
def titleMatchLen (s : List Char) : Option Nat :=
  if "<title>".toList.isPrefixOf s then (titleClose (s.drop 7)).map (fun k => 7 + k)
  else none

/-- The replacement text `` `<title>${title}</title>` `` before
`$`-expansion. -/
def titleRepl (t : List Char) : List Char :=
  "<title>".toList ++ t ++ "</title>".toList

/-- Non-global regex replacement of the first `<title>...</title>`. -/
def titleReplaceAux (t pre : List Char) (s : List Char) : List Char :=
  match s with
  | [] => []
  | c :: rest =>
    match titleMatchLen (c :: rest) with
    | some n =>
      expandRepl ((c :: rest).take n) pre ((c :: rest).drop n) (titleRepl t)
        ++ (c :: rest).drop n
    | none => c :: titleReplaceAux t (pre ++ [c]) rest

/-- Title substitution entry point. -/
def titleReplace (t : List Char) (s : List Char) : List Char :=
  titleReplaceAux t [] s

/-- The optional `settings` object of the request body. -/
structure Settings where
  bg : Option (List Char)
  title : Option (List Char)

/-- The two guarded substitutions (`if (settings.bg) ...`,
`if (settings.title) ...`); an absent value or an empty string (falsy in
JavaScript) leaves the document untouched. -/
def applySettings (st : Settings) (doc : List Char) : List Char :=
  let d1 := match st.bg with
    | some b => if b.isEmpty then doc else bgReplace b doc
    | none => doc
  match st.title with
  | some t => if t.isEmpty then d1 else titleReplace t d1
  | none => d1

/-! ## The `/save-projects` handler (`server.js` lines 54-126) -/

inductive SaveResult where
  | docMissing
  | markerNotFound
  | openBracketNotFound
  | unbalanced
  | success (written : List Char) (count : Nat)
  | lengthThrow (written : List Char)
  deriving DecidableEq

/-- HTTP status the handler writes for each outcome. -/
def statusOf : SaveResult → Nat
  | .docMissing => 404
  | .markerNotFound => 400
  | .openBracketNotFound => 400
  | .unbalanced => 400
  | .success _ _ => 200
  | .lengthThrow _ => 500

/-- Bytes written to `index.html` by the request, if any. -/
def writtenOf : SaveResult → Option (List Char)
  | .success w _ => some w
  | .lengthThrow w => some w
  | _ => none

/-- The `ok` field of the JSON response. -/
def okOf : SaveResult → Bool
  | .success _ _ => true
  | _ => false

/-- The `count` field of the JSON response, when present. -/
def countOf : SaveResult → Option Nat
  | .success _ n => some n
  | _ => none

/-- The `/save-projects` handler after JSON body decoding: `doc` is the
on-disk document (`none` when `index.html` is absent), `projects` the
body's array field (`none` when the field is missing, in which case
`JSON.stringify(undefined, null, 2)` is `undefined` and the template
interpolates the text `undefined`), `st` the optional settings.  When
`projects` is missing the handler still writes the file and only then
throws on `projects.length`, answering 500. -/
def newArrayOf : Option (List Json) → List Char
  | some xs => stringifyAt 0 (Json.arr xs)
  | none => "undefined".toList

/-- What the handler does once the patcher has run: on success it applies
the settings substitutions, writes the file, and only then reads
`projects.length` (throwing when `projects` is missing). -/
def finishSave (projects : Option (List Json)) (st : Settings) : PatchOut → SaveResult
  | .markerNotFound => .markerNotFound
  | .openBracketNotFound => .openBracketNotFound
  | .unbalanced => .unbalanced
  | .ok replaced =>
    match projects with
    | none => .lengthThrow (applySettings st replaced)
    | some xs => .success (applySettings st replaced) xs.length

def saveProjects (doc : Option (List Char)) (projects : Option (List Json))
    (st : Settings) : SaveResult :=
  match doc with
  | none => .docMissing
  | some html => finishSave projects st (patchCore html (newArrayOf projects))

/-! ## The static file resolver (`server.js` lines 131-151) -/

/-- One normalization step of POSIX `path.join`: empty and `.` segments
vanish, `..` pops (or vanishes at the root of an absolute path). -/
def normStep (acc : List (List Char)) (seg : List Char) : List (List Char) :=
  if seg = [] ∨ seg = ['.'] then acc
  else if seg = ['.', '.'] then acc.dropLast
  else acc ++ [seg]

/-- Node `path.join(root, p)` for an absolute `root`: concatenate with a
separator and normalize. -/
def pathJoin (root p : List Char) : List Char :=
  let segs := (root ++ '/' :: p).splitOn '/'
  let stack := segs.foldl normStep []
  '/' :: List.intercalate ['/'] stack

/-- Node `path.extname`: from the last `.` of the basename, unless it is
the basename's first character. -/
def extname (p : List Char) : List Char :=
  let base := (p.splitOn '/').getLastD []
  let idxs := (List.range base.length).filter (fun i => base.getD i ' ' = '.')
  match idxs.getLast? with
  | some i => if i = 0 then [] else base.drop i
  | none => []

/-- The `MIME` extension table (`server.js` lines 19-31). -/
def mimeOf (ext : List Char) : List Char :=
  if ext = ".html".toList then "text/html".toList
  else if ext = ".css".toList then "text/css".toList
  else if ext = ".js".toList then "application/javascript".toList
  else if ext = ".png".toList then "image/png".toList
  else if ext = ".jpg".toList then "image/jpeg".toList
  else if ext = ".jpeg".toList then "image/jpeg".toList
  else if ext = ".gif".toList then "image/gif".toList
  else if ext = ".webp".toList then "image/webp".toList
  else if ext = ".svg".toList then "image/svg+xml".toList
  else if ext = ".ico".toList then "image/x-icon".toList
  else if ext = ".json".toList then "application/json".toList
  else "application/octet-stream".toList

inductive StaticResult where
  | forbidden
  | notFound (p : List Char)
  | ok (p : List Char) (mime : List Char)
  deriving DecidableEq

/-- The static path check and dispatch: default document for `/`, join
against the root, reject when the joined path does not *start with* the
root string, then look the file up. `ex` models `fs.existsSync`. -/
def resolveStatic (root : List Char) (pathname : List Char)
    (ex : List Char → Bool) : StaticResult :=
  let fp := if pathname = ['/'] then "/index.html".toList else pathname
  let jp := pathJoin root fp
  if root.isPrefixOf jp then
    if ex jp then .ok jp (mimeOf ((extname jp).map Char.toLower)) else .notFound jp
  else .forbidden

/-- The intended root confinement: `p` is the root itself or lies strictly
below it.  (The code's `startsWith` test is weaker.) -/
def isWithin (root p : List Char) : Bool :=
  p == root || (root ++ ['/']).isPrefixOf p

/-! ## Lemmas: substring occurrence and `firstOccur` -/

theorem occursAt_iff_take {pat s : List Char} {j : Nat} :
    occursAt pat s j ↔ pat = (s.drop j).take pat.length := by
  unfold occursAt
  rw [List.isPrefixOf_iff_prefix, List.prefix_iff_eq_take]

theorem occursAt_window {pat s₁ s₂ : List Char} {j : Nat}
    (h : s₁.take (j + pat.length) = s₂.take (j + pat.length)) :
    occursAt pat s₁ j ↔ occursAt pat s₂ j := by
  have e : ∀ s : List Char, (s.drop j).take pat.length = (s.take (j + pat.length)).drop j := by
    intro s; rw [List.drop_take]; congr 1; omega
  rw [occursAt_iff_take, occursAt_iff_take, e s₁, e s₂, h]

theorem occursAt_lt_length {pat s : List Char} {j : Nat} (hne : pat ≠ [])
    (h : occursAt pat s j) : j < s.length := by
  rw [occursAt_iff_take] at h
  by_contra hj
  push_neg at hj
  rw [List.drop_eq_nil_of_le hj] at h
  simp at h
  exact hne h

theorem take_of_occursAt {pat s : List Char} {m : Nat} (h : occursAt pat s m) :
    s.take (m + pat.length) = s.take m ++ pat := by
  rw [List.take_add]
  congr 1
  exact (occursAt_iff_take.mp h).symm

theorem occursAt_cons_succ {pat : List Char} {c : Char} {s : List Char} {j : Nat} :
    occursAt pat (c :: s) (j + 1) ↔ occursAt pat s j := Iff.rfl

theorem firstOccur_eq_some_iff {pat s : List Char} {i : Nat} :
    firstOccur pat s = some i ↔ occursAt pat s i ∧ ∀ j, j < i → ¬ occursAt pat s j := by
  induction s generalizing i with
  | nil =>
    unfold firstOccur
    by_cases hp : pat.isEmpty
    · rw [if_pos hp]
      have hocc : ∀ j, occursAt pat [] j := by
        intro j
        have : pat = [] := by cases pat <;> simp_all
        simp [occursAt, this, List.isPrefixOf]
      constructor
      · rintro h
        have hi : i = 0 := by injection h with h; omega
        subst hi
        exact ⟨hocc 0, by omega⟩
      · rintro ⟨-, hmin⟩
        by_contra hne
        have : i ≠ 0 := by intro h; subst h; exact hne rfl
        exact hmin 0 (by omega) (hocc 0)
    · rw [if_neg hp]
      have hocc : ∀ j, ¬ occursAt pat [] j := by
        intro j h
        rw [occursAt_iff_take] at h
        simp at h
        cases pat <;> simp_all
      constructor
      · intro h; cases h
      · rintro ⟨h, -⟩; exact absurd h (hocc i)
  | cons c rest ih =>
    unfold firstOccur
    by_cases hp : pat.isPrefixOf (c :: rest)
    · rw [if_pos hp]
      have h0 : occursAt pat (c :: rest) 0 := hp
      constructor
      · intro h
        have hi : i = 0 := by injection h with h; omega
        subst hi
        exact ⟨h0, by omega⟩
      · rintro ⟨-, hmin⟩
        by_contra hne
        have : i ≠ 0 := by
          intro h; subst h; exact hne rfl
        exact hmin 0 (by omega) h0
    · rw [if_neg hp]
      have h0 : ¬ occursAt pat (c :: rest) 0 := hp
      constructor
      · intro h
        rcases Option.map_eq_some'.mp h with ⟨i', hi', rfl⟩
        rcases ih.mp hi' with ⟨hocc, hmin⟩
        refine ⟨hocc, ?_⟩
        intro j hj
        cases j with
        | zero => exact h0
        | succ j' => exact hmin j' (by omega)
      · rintro ⟨hocc, hmin⟩
        cases i with
        | zero => exact absurd hocc h0
        | succ i' =>
          have : firstOccur pat rest = some i' := by
            apply ih.mpr
            refine ⟨hocc, ?_⟩
            intro j hj
            exact hmin (j + 1) (by omega)
          rw [this]
          rfl

theorem firstOccur_single_append {c : Char} (u w : List Char) (hc : c ∉ u) :
    firstOccur [c] (u ++ c :: w) = some u.length := by
  induction u with
  | nil =>
    unfold firstOccur
    simp [List.isPrefixOf]
  | cons a u ih =>
    have ha : ¬ ([c].isPrefixOf (a :: (u ++ c :: w))) = true := by
      simp [List.isPrefixOf]
      intro h
      exact hc (h ▸ List.mem_cons_self a u)
    unfold firstOccur
    simp only [List.cons_append]
    rw [if_neg (by simpa using ha), ih (fun h => hc (List.mem_cons_of_mem a h))]
    rfl

/-! ## Lemmas: the bracket-counting scan -/

theorem balanced_nil : balanced [] := by
  constructor <;> simp [balanced]

theorem balanced_append {x y : List Char} (hx : balanced x) (hy : balanced y) :
    balanced (x ++ y) := by
  obtain ⟨hx1, hx2⟩ := hx
  obtain ⟨hy1, hy2⟩ := hy
  constructor
  · simp [List.count_append, hx1, hy1]
  · intro k
    by_cases hk : k ≤ x.length
    · rw [List.take_append_of_le_length hk]
      exact hx2 k
    · have : k = x.length + (k - x.length) := by omega
      rw [this, List.take_append, List.count_append, List.count_append]
      have := hy2 (k - x.length)
      omega

theorem balanced_of_no_brackets {s : List Char} (h1 : '[' ∉ s) (h2 : ']' ∉ s) :
    balanced s := by
  constructor
  · rw [List.count_eq_zero.mpr h2, List.count_eq_zero.mpr h1]
  · intro k
    have t1 : '[' ∉ s.take k := fun h => h1 (List.take_subset k s h)
    have t2 : ']' ∉ s.take k := fun h => h2 (List.take_subset k s h)
    rw [List.count_eq_zero.mpr t2, List.count_eq_zero.mpr t1]

theorem balanced_wrap {mid : List Char} (h : balanced mid) :
    balanced ('[' :: (mid ++ [']'])) := by
  obtain ⟨h1, h2⟩ := h
  constructor
  · simp [List.count_cons, List.count_append, h1]
  · intro k
    cases k with
    | zero => simp
    | succ k =>
      rw [List.take_succ_cons]
      by_cases hk : k ≤ mid.length
      · rw [List.take_append_of_le_length hk]
        have := h2 k
        simp [List.count_cons]
        omega
      · rw [List.take_of_length_le (by simp; omega)]
        simp [List.count_cons, List.count_append, h1]

/-- The scan run through a segment that never lets the depth reach zero,
ending at a `]` that brings it exactly to zero. -/
theorem scanClose_through (A : List Char) : ∀ (rest : List Char) (d : Int), 1 ≤ d →
    (∀ k, 1 ≤ d + ((A.take k).count '[' : Int) - ((A.take k).count ']' : Int)) →
    (d + (A.count '[' : Int) - (A.count ']' : Int) = 1) →
    scanClose (A ++ ']' :: rest) d = some A.length := by
  induction A with
  | nil =>
    intro rest d _ hpre hfin
    simp at hfin
    rw [List.nil_append]
    unfold scanClose
    rw [if_neg (by decide), if_pos rfl, if_pos (by omega)]
    rfl
  | cons c A ih =>
    intro rest d hd hpre hfin
    rw [List.cons_append]
    unfold scanClose
    by_cases hc1 : c = '['
    · subst hc1
      rw [if_pos rfl]
      rw [ih rest (d + 1) (by omega) ?_ ?_]
      · rfl
      · intro k
        have := hpre (k + 1)
        simp [List.take_succ_cons, List.count_cons] at this
        omega
      · simp [List.count_cons] at hfin
        omega
    · by_cases hc2 : c = ']'
      · subst hc2
        rw [if_neg (by decide), if_pos rfl]
        have hd2 : 2 ≤ d := by
          have := hpre 1
          simp [List.take_succ_cons, List.count_cons] at this
          omega
        rw [if_neg (by omega)]
        rw [ih rest (d - 1) (by omega) ?_ ?_]
        · rfl
        · intro k
          have := hpre (k + 1)
          simp [List.take_succ_cons, List.count_cons] at this
          omega
        · simp [List.count_cons] at hfin
          omega
      · rw [if_neg hc1, if_neg hc2]
        rw [ih rest d hd ?_ ?_]
        · rfl
        · intro k
          have := hpre (k + 1)
          simp [List.take_succ_cons, List.count_cons, Ne.symm hc1, Ne.symm hc2] at this
          omega
        · simp [List.count_cons, Ne.symm hc1, Ne.symm hc2] at hfin
          omega

/-- Scanning from the opening bracket of `[` + balanced interior + `]`
lands exactly on that closing bracket. -/
theorem scanClose_balanced {mid : List Char} (h : balanced mid) (rest : List Char) :
    scanClose ('[' :: (mid ++ ']' :: rest)) 0 = some (mid.length + 1) := by
  obtain ⟨h1, h2⟩ := h
  unfold scanClose
  rw [if_pos rfl]
  norm_num
  rw [scanClose_through mid rest 1 (by omega) ?_ ?_]
  · intro k
    have := h2 k
    omega
  · omega

/-! ## Lemmas: bracket-freeness of serialization fragments -/

theorem isDigit10_digitChar10 (n : Nat) : isDigit10 (digitChar10 n) = true := by
  match n with
  | 0 | 1 | 2 | 3 | 4 | 5 | 6 | 7 | 8 => decide
  | n + 9 =>
    have h : digitChar10 (n + 9) = '9' := rfl
    rw [h]; decide

theorem hexChar16_no_brackets (n : Nat) :
    hexChar16 n ≠ '[' ∧ hexChar16 n ≠ ']' := by
  match n with
  | 0 | 1 | 2 | 3 | 4 | 5 | 6 | 7 | 8 | 9 | 10 | 11 | 12 | 13 | 14 => decide
  | n + 15 =>
    have h : hexChar16 (n + 15) = 'f' := rfl
    rw [h]; decide

theorem natToCharsAux_fuel (n : Nat) : ∀ f1 f2, n < f1 → n < f2 →
    natToCharsAux f1 n = natToCharsAux f2 n := by
  induction n using Nat.strong_induction_on with
  | _ n ih =>
    intro f1 f2 h1 h2
    cases f1 with
    | zero => omega
    | succ f1 =>
      cases f2 with
      | zero => omega
      | succ f2 =>
        unfold natToCharsAux
        by_cases h10 : n < 10
        · rw [if_pos h10, if_pos h10]
        · rw [if_neg h10, if_neg h10,
            ih (n / 10) (Nat.div_lt_self (by omega) (by omega)) f1 f2 (by omega) (by omega)]

/-- The usual one-step unfolding of `natToChars`. -/
theorem natToChars_step (n : Nat) :
    natToChars n = if n < 10 then [digitChar10 n]
      else natToChars (n / 10) ++ [digitChar10 (n % 10)] := by
  show natToCharsAux (n + 1) n = _
  unfold natToCharsAux
  by_cases h10 : n < 10
  · rw [if_pos h10, if_pos h10]
  · rw [if_neg h10, if_neg h10,
      natToCharsAux_fuel (n / 10) n (n / 10 + 1) (by omega) (by omega)]
    rfl

theorem natToChars_all_digits (n : Nat) : ∀ c ∈ natToChars n, isDigit10 c = true := by
  induction n using Nat.strong_induction_on with
  | _ n ih =>
    rw [natToChars_step]
    split
    · intro c hc
      simp at hc
      subst hc
      exact isDigit10_digitChar10 _
    · intro c hc
      rw [List.mem_append] at hc
      rcases hc with h | h
      · exact ih (n / 10) (Nat.div_lt_self (by omega) (by omega)) c h
      · simp at h
        subst h
        exact isDigit10_digitChar10 _

theorem intToChars_no_brackets (n : Int) :
    '[' ∉ intToChars n ∧ ']' ∉ intToChars n := by
  have hnat : ∀ m : Nat, '[' ∉ natToChars m ∧ ']' ∉ natToChars m := by
    intro m
    constructor <;>
      (intro h; have := natToChars_all_digits m _ h; simp [isDigit10] at this)
  unfold intToChars
  split
  · constructor
    · intro h
      rcases List.mem_cons.mp h with h | h
      · exact absurd h (by decide)
      · exact (hnat n.natAbs).1 h
    · intro h
      rcases List.mem_cons.mp h with h | h
      · exact absurd h (by decide)
      · exact (hnat n.natAbs).2 h
  · exact hnat n.natAbs

theorem escapeChar_no_brackets {c : Char} (h1 : c ≠ '[') (h2 : c ≠ ']') :
    '[' ∉ escapeChar c ∧ ']' ∉ escapeChar c := by
  unfold escapeChar
  split_ifs with e1 e2 e3 e4 e5 e6 e7 e8
  · exact ⟨by decide, by decide⟩
  · exact ⟨by decide, by decide⟩
  · exact ⟨by decide, by decide⟩
  · exact ⟨by decide, by decide⟩
  · exact ⟨by decide, by decide⟩
  · exact ⟨by decide, by decide⟩
  · exact ⟨by decide, by decide⟩
  · constructor
    · intro h
      simp at h
      rcases h with h | h
      · exact absurd h.symm (hexChar16_no_brackets _).1
      · exact absurd h.symm (hexChar16_no_brackets _).1
    · intro h
      simp at h
      rcases h with h | h
      · exact absurd h.symm (hexChar16_no_brackets _).2
      · exact absurd h.symm (hexChar16_no_brackets _).2
  · constructor
    · intro h
      simp at h
      exact h1 h.symm
    · intro h
      simp at h
      exact h2 h.symm

theorem escape_no_brackets {s : List Char} (h1 : '[' ∉ s) (h2 : ']' ∉ s) :
    '[' ∉ escape s ∧ ']' ∉ escape s := by
  induction s with
  | nil => simp [escape]
  | cons c s ih =>
    have hc1 : c ≠ '[' := fun h => h1 (h ▸ List.mem_cons_self c s)
    have hc2 : c ≠ ']' := fun h => h2 (h ▸ List.mem_cons_self c s)
    have hs := ih (fun h => h1 (List.mem_cons_of_mem c h)) (fun h => h2 (List.mem_cons_of_mem c h))
    have hes := escapeChar_no_brackets hc1 hc2
    have : escape (c :: s) = escapeChar c ++ escape s := rfl
    rw [this]
    constructor <;> (intro h; rcases List.mem_append.mp h with h | h)
    · exact hes.1 h
    · exact hs.1 h
    · exact hes.2 h
    · exact hs.2 h

theorem nlInd_no_brackets (ind : Nat) : '[' ∉ nlInd ind ∧ ']' ∉ nlInd ind := by
  unfold nlInd
  constructor
  · intro h
    rcases List.mem_cons.mp h with h | h
    · exact absurd h (by decide)
    · exact absurd (List.eq_of_mem_replicate h) (by decide)
  · intro h
    rcases List.mem_cons.mp h with h | h
    · exact absurd h (by decide)
    · exact absurd (List.eq_of_mem_replicate h) (by decide)

theorem balanced_no_brackets_list {s : List Char} (h1 : '[' ∉ s) (h2 : ']' ∉ s) :
    balanced s := balanced_of_no_brackets h1 h2

/-! ## Lemmas: clean payloads serialize to balanced text -/

theorem cleanL_mem {xs : List Json} (h : cleanL xs = true) :
    ∀ x ∈ xs, cleanB x = true := by
  induction xs with
  | nil => intro x hx; simp at hx
  | cons y ys ih =>
    have heq : cleanL (y :: ys) = (cleanB y && cleanL ys) := rfl
    rw [heq, Bool.and_eq_true] at h
    intro x hx
    rcases List.mem_cons.mp hx with hx | hx
    · exact hx ▸ h.1
    · exact ih h.2 x hx

theorem cleanF_mem {fs : List (List Char × Json)} (h : cleanF fs = true) :
    ∀ f ∈ fs, ('[' ∉ f.1 ∧ ']' ∉ f.1) ∧ cleanB f.2 = true := by
  induction fs with
  | nil => intro f hf; simp at hf
  | cons g gs ih =>
    have heq : cleanF (g :: gs) =
        (((!(g.1.contains '[') && !(g.1.contains ']')) && cleanB g.2) && cleanF gs) := by
      rcases g with ⟨k, v⟩; rfl
    rw [heq, Bool.and_eq_true, Bool.and_eq_true, Bool.and_eq_true] at h
    intro f hf
    rcases List.mem_cons.mp hf with hf | hf
    · subst hf
      rcases h.1.1 with ⟨hb1, hb2⟩
      rw [Bool.not_eq_true'] at hb1 hb2
      refine ⟨⟨?_, ?_⟩, h.1.2⟩
      · intro hm
        have hc : f.1.contains '[' = true := List.elem_iff.mpr hm
        rw [hb1] at hc
        exact absurd hc (by decide)
      · intro hm
        have hc : f.1.contains ']' = true := List.elem_iff.mpr hm
        rw [hb2] at hc
        exact absurd hc (by decide)
    · exact ih h.2 f hf

theorem cleanB_arr_mem {xs : List Json} (h : cleanB (Json.arr xs) = true) :
    ∀ x ∈ xs, cleanB x = true := cleanL_mem h

theorem cleanB_obj_mem {fs : List (List Char × Json)} (h : cleanB (Json.obj fs) = true) :
    ∀ f ∈ fs, ('[' ∉ f.1 ∧ ']' ∉ f.1) ∧ cleanB f.2 = true := cleanF_mem h

theorem cleanB_str {s : List Char} (h : cleanB (Json.str s) = true) :
    '[' ∉ s ∧ ']' ∉ s := by
  unfold cleanB at h
  simp only [Bool.and_eq_true, Bool.not_eq_true'] at h
  constructor
  · intro hm
    have hc : s.contains '[' = true := List.elem_iff.mpr hm
    rw [h.1] at hc
    exact absurd hc (by decide)
  · intro hm
    have hc : s.contains ']' = true := List.elem_iff.mpr hm
    rw [h.2] at hc
    exact absurd hc (by decide)

mutual

theorem stringify_balanced : ∀ (v : Json), cleanB v = true → ∀ ind, balanced (stringifyAt ind v)
  | .null, _, ind => by
    show balanced ("null".toList)
    exact balanced_no_brackets_list (by decide) (by decide)
  | .bool true, _, ind => by
    show balanced ("true".toList)
    exact balanced_no_brackets_list (by decide) (by decide)
  | .bool false, _, ind => by
    show balanced ("false".toList)
    exact balanced_no_brackets_list (by decide) (by decide)
  | .num n, _, ind => by
    have h := intToChars_no_brackets n
    show balanced (intToChars n)
    exact balanced_no_brackets_list h.1 h.2
  | .str s, h, ind => by
    have hs := cleanB_str h
    have he := escape_no_brackets hs.1 hs.2
    show balanced ('"' :: (escape s ++ ['"']))
    have : ('"' :: (escape s ++ ['"'])) = ['"'] ++ escape s ++ ['"'] := by simp
    rw [this]
    exact balanced_append (balanced_append (balanced_no_brackets_list (by decide) (by decide))
      (balanced_no_brackets_list he.1 he.2)) (balanced_no_brackets_list (by decide) (by decide))
  | .arr [], _, ind => by
    show balanced ('[' :: ([] ++ [']']))
    exact balanced_wrap balanced_nil
  | .arr (x :: xs), h, ind => by
    show balanced ('[' :: (stringifyItems ind (x :: xs) ++ nlInd ind ++ [']']))
    apply balanced_wrap
    exact balanced_append
      (stringifyItems_balanced (x :: xs) (cleanB_arr_mem h) ind)
      (balanced_no_brackets_list (nlInd_no_brackets ind).1 (nlInd_no_brackets ind).2)
  | .obj [], _, ind => by
    show balanced (['\x7b', '\x7d'])
    exact balanced_no_brackets_list (by decide) (by decide)
  | .obj (f :: fs), h, ind => by
    show balanced ('\x7b' :: (stringifyFields ind (f :: fs) ++ nlInd ind ++ ['\x7d']))
    have : ('\x7b' :: (stringifyFields ind (f :: fs) ++ nlInd ind ++ ['\x7d']))
        = ['\x7b'] ++ (stringifyFields ind (f :: fs) ++ nlInd ind ++ ['\x7d']) := by simp
    rw [this]
    refine balanced_append (balanced_no_brackets_list (by decide) (by decide)) ?_
    refine balanced_append (balanced_append ?_
      (balanced_no_brackets_list (nlInd_no_brackets ind).1 (nlInd_no_brackets ind).2))
      (balanced_no_brackets_list (by decide) (by decide))
    exact stringifyFields_balanced (f :: fs) (cleanB_obj_mem h) ind

theorem stringifyItems_balanced : ∀ (xs : List Json), (∀ x ∈ xs, cleanB x = true) →
    ∀ ind, balanced (stringifyItems ind xs)
  | [], _, ind => balanced_nil
  | [x], h, ind => by
    show balanced (nlInd (ind + 2) ++ stringifyAt (ind + 2) x)
    exact balanced_append
      (balanced_no_brackets_list (nlInd_no_brackets _).1 (nlInd_no_brackets _).2)
      (stringify_balanced x (h x (List.mem_cons_self x [])) (ind + 2))
  | x :: y :: xs, h, ind => by
    show balanced (nlInd (ind + 2) ++ stringifyAt (ind + 2) x ++ [','] ++ stringifyItems ind (y :: xs))
    refine balanced_append (balanced_append (balanced_append ?_ ?_) ?_) ?_
    · exact balanced_no_brackets_list (nlInd_no_brackets _).1 (nlInd_no_brackets _).2
    · exact stringify_balanced x (h x (List.mem_cons_self x _)) (ind + 2)
    · exact balanced_no_brackets_list (by decide) (by decide)
    · exact stringifyItems_balanced (y :: xs) (fun z hz => h z (List.mem_cons_of_mem x hz)) ind

theorem stringifyFields_balanced : ∀ (fs : List (List Char × Json)),
    (∀ f ∈ fs, ('[' ∉ f.1 ∧ ']' ∉ f.1) ∧ cleanB f.2 = true) →
    ∀ ind, balanced (stringifyFields ind fs)
  | [], _, ind => balanced_nil
  | [(k, v)], h, ind => by
    show balanced (nlInd (ind + 2) ++ ('"' :: (escape k ++ ['"', ':', ' '])) ++ stringifyAt (ind + 2) v)
    have hk := (h (k, v) (List.mem_cons_self _ [])).1
    have he := escape_no_brackets hk.1 hk.2
    refine balanced_append (balanced_append ?_ ?_) ?_
    · exact balanced_no_brackets_list (nlInd_no_brackets _).1 (nlInd_no_brackets _).2
    · have : ('"' :: (escape k ++ ['"', ':', ' '])) = ['"'] ++ escape k ++ ['"', ':', ' '] := by simp
      rw [this]
      exact balanced_append (balanced_append (balanced_no_brackets_list (by decide) (by decide))
        (balanced_no_brackets_list he.1 he.2)) (balanced_no_brackets_list (by decide) (by decide))
    · exact stringify_balanced v (h (k, v) (List.mem_cons_self _ _)).2 (ind + 2)
  | (k, v) :: g :: fs, h, ind => by
    show balanced (nlInd (ind + 2) ++ ('"' :: (escape k ++ ['"', ':', ' '])) ++ stringifyAt (ind + 2) v
      ++ [','] ++ stringifyFields ind (g :: fs))
    have hk := (h (k, v) (List.mem_cons_self _ _)).1
    have he := escape_no_brackets hk.1 hk.2
    refine balanced_append (balanced_append (balanced_append (balanced_append ?_ ?_) ?_) ?_) ?_
    · exact balanced_no_brackets_list (nlInd_no_brackets _).1 (nlInd_no_brackets _).2
    · have : ('"' :: (escape k ++ ['"', ':', ' '])) = ['"'] ++ escape k ++ ['"', ':', ' '] := by simp
      rw [this]
      exact balanced_append (balanced_append (balanced_no_brackets_list (by decide) (by decide))
        (balanced_no_brackets_list he.1 he.2)) (balanced_no_brackets_list (by decide) (by decide))
    · exact stringify_balanced v (h (k, v) (List.mem_cons_self _ _)).2 (ind + 2)
    · exact balanced_no_brackets_list (by decide) (by decide)
    · exact stringifyFields_balanced (g :: fs) (fun z hz => h z (List.mem_cons_of_mem _ hz)) ind

end

/-! ## Lemmas: whitespace skipping -/

theorem skipWs_append {w : List Char} (hw : ∀ c ∈ w, isWsChar c = true) (s : List Char) :
    skipWs (w ++ s) = skipWs s := by
  induction w with
  | nil => rfl
  | cons c w ih =>
    rw [List.cons_append]
    have hstep : skipWs (c :: (w ++ s)) = skipWs (w ++ s) := by
      conv_lhs => unfold skipWs
      simp [hw c (List.mem_cons_self _ _)]
    rw [hstep]
    exact ih (fun d hd => hw d (List.mem_cons_of_mem _ hd))

theorem skipWs_not_ws {c : Char} (hc : isWsChar c = false) (s : List Char) :
    skipWs (c :: s) = c :: s := by
  unfold skipWs
  simp [hc]

theorem nlInd_all_ws (ind : Nat) : ∀ c ∈ nlInd ind, isWsChar c = true := by
  intro c hc
  rcases List.mem_cons.mp hc with h | h
  · subst h; decide
  · rw [List.eq_of_mem_replicate h]; decide

/-! ## Lemmas: numeral round trip -/

theorem digitVal10_digitChar10 {n : Nat} (h : n < 10) : digitVal10 (digitChar10 n) = n := by
  interval_cases n <;> decide

theorem natToChars_ne_nil (n : Nat) : natToChars n ≠ [] := by
  rw [natToChars_step]
  split <;> simp

theorem digitsVal_append_last (ds : List Char) (c : Char) :
    digitsVal (ds ++ [c]) = digitsVal ds * 10 + digitVal10 c := by
  unfold digitsVal
  rw [List.foldl_append]
  rfl

theorem digitsVal_natToChars (n : Nat) : digitsVal (natToChars n) = n := by
  induction n using Nat.strong_induction_on with
  | _ n ih =>
    rw [natToChars_step]
    split
    · rename_i h
      have e : digitsVal [digitChar10 n] = 0 * 10 + digitVal10 (digitChar10 n) := rfl
      rw [e, digitVal10_digitChar10 h]
      omega
    · rename_i h
      rw [digitsVal_append_last, ih (n / 10) (Nat.div_lt_self (by omega) (by omega)),
        digitVal10_digitChar10 (Nat.mod_lt _ (by omega))]
      omega

theorem takeDigits_append {ds rest : List Char} (hds : ∀ c ∈ ds, isDigit10 c = true)
    (hr : headNotDigit rest = true) : takeDigits (ds ++ rest) = (ds, rest) := by
  induction ds with
  | nil =>
    cases rest with
    | nil => rfl
    | cons c r =>
      unfold headNotDigit at hr
      simp only [Bool.not_eq_true'] at hr
      unfold takeDigits
      simp [hr]
  | cons c ds ih =>
    rw [List.cons_append]
    unfold takeDigits
    rw [ih (fun d hd => hds d (List.mem_cons_of_mem _ hd))]
    simp [hds c (List.mem_cons_self _ _)]

theorem parseNum_intToChars (n : Int) {rest : List Char} (hr : headNotDigit rest = true) :
    parseNum (intToChars n ++ rest) = some (n, rest) := by
  have hnn := natToChars_ne_nil n.natAbs
  have hdigits := natToChars_all_digits n.natAbs
  obtain ⟨d, t, hdt⟩ : ∃ d t, natToChars n.natAbs = d :: t := by
    cases h : natToChars n.natAbs with
    | nil => exact absurd h hnn
    | cons d t => exact ⟨d, t, rfl⟩
  have hd : isDigit10 d = true := hdigits d (hdt ▸ List.mem_cons_self _ _)
  have hdm : d ≠ '-' := by
    intro h
    rw [h] at hd
    exact absurd hd (by decide)
  unfold intToChars
  split
  · rename_i hneg
    unfold parseNum
    rw [List.cons_append, List.head?_cons, if_pos rfl]
    have : ('-' :: (natToChars n.natAbs ++ rest)).drop 1 = natToChars n.natAbs ++ rest := rfl
    rw [this, takeDigits_append hdigits hr, hdt]
    show some (-(digitsVal (d :: t) : Int), rest) = some (n, rest)
    rw [← hdt, digitsVal_natToChars]
    simp only [Option.some.injEq, Prod.mk.injEq]
    exact ⟨by omega, by simp⟩
  · rename_i hneg
    unfold parseNum
    rw [hdt, List.cons_append, List.head?_cons,
      if_neg (by simp [hdm]), ← List.cons_append, ← hdt, takeDigits_append hdigits hr, hdt]
    show some ((digitsVal (d :: t) : Int), rest) = some (n, rest)
    rw [← hdt, digitsVal_natToChars]
    simp only [Option.some.injEq, Prod.mk.injEq]
    exact ⟨by omega, by simp⟩

/-! ## Lemmas: string-literal round trip -/

theorem isHex16_hexChar16 (m : Nat) : isHex16 (hexChar16 m) = true := by
  match m with
  | 0 | 1 | 2 | 3 | 4 | 5 | 6 | 7 | 8 | 9 | 10 | 11 | 12 | 13 | 14 => decide
  | m + 15 =>
    have h : hexChar16 (m + 15) = 'f' := rfl
    rw [h]; decide

theorem hexVal16_hexChar16 {m : Nat} (h : m < 16) : hexVal16 (hexChar16 m) = m := by
  interval_cases m <;> decide

theorem parseStr_escape (s : List Char) (rest : List Char) :
    parseStr (escape s ++ '"' :: rest) = some (s, rest) := by
  induction s with
  | nil =>
    show parseStr ('"' :: rest) = some ([], rest)
    unfold parseStr
    rw [if_pos rfl]
  | cons c s ih =>
    have he : escape (c :: s) = escapeChar c ++ escape s := rfl
    rw [he, List.append_assoc]
    unfold escapeChar
    split_ifs with e1 e2 e3 e4 e5 e6 e7 e8
    · subst e1
      unfold parseStr
      simp [ih]
    · subst e2
      unfold parseStr
      simp [ih]
    · have hc : c = '\x08' := e3
      subst hc
      unfold parseStr
      simp [ih]
    · have hc : c = '\t' := e4
      subst hc
      unfold parseStr
      simp [ih]
    · have hc : c = '\n' := e5
      subst hc
      unfold parseStr
      simp [ih]
    · have hc : c = '\x0c' := e6
      subst hc
      unfold parseStr
      simp [ih]
    · have hc : c = '\x0d' := e7
      subst hc
      unfold parseStr
      simp [ih]
    · show parseStr ('\\' :: 'u' :: '0' :: '0'
          :: hexChar16 (c.toNat / 16) :: hexChar16 (c.toNat % 16) :: (escape s ++ '"' :: rest))
        = some (c :: s, rest)
      have hdiv : c.toNat / 16 < 16 := by omega
      have hmod : c.toNat % 16 < 16 := by omega
      have hval : ((hexVal16 '0' * 16 + hexVal16 '0') * 16
          + hexVal16 (hexChar16 (c.toNat / 16))) * 16 + hexVal16 (hexChar16 (c.toNat % 16))
          = c.toNat := by
        rw [hexVal16_hexChar16 hdiv, hexVal16_hexChar16 hmod]
        have h0 : hexVal16 '0' = 0 := by decide
        rw [h0]
        omega
      unfold parseStr
      simp [isHex16_hexChar16, ih, hval, Char.ofNat_toNat,
        show isHex16 '0' = true from by decide]
    · show parseStr (c :: (escape s ++ '"' :: rest)) = some (c :: s, rest)
      unfold parseStr
      simp [e1, e2, e8, ih]

/-! ## Lemmas: heads of serialized values -/

theorem isPrefixOf_append_self (l t : List Char) : l.isPrefixOf (l ++ t) = true :=
  List.isPrefixOf_iff_prefix.mpr (List.prefix_append l t)

theorem parseVal_ws {w : List Char} (hw : ∀ c ∈ w, isWsChar c = true) (f : Nat)
    (s : List Char) : parseVal f (w ++ s) = parseVal f s := by
  cases f with
  | zero => simp [parseVal]
  | succ f =>
    conv_lhs => unfold parseVal
    conv_rhs => unfold parseVal
    rw [skipWs_append hw]

theorem isDigit10_not_special {c : Char} (h : isDigit10 c = true) :
    isWsChar c = false ∧ c ≠ 'n' ∧ c ≠ 't' ∧ c ≠ 'f' ∧ c ≠ '"' ∧ c ≠ '['
      ∧ c ≠ '\x7b' ∧ c ≠ ']' ∧ c ≠ '\x7d' ∧ c ≠ ',' := by
  refine ⟨?_, ?_, ?_, ?_, ?_, ?_, ?_, ?_, ?_, ?_⟩
  · by_contra hb
    rw [Bool.not_eq_false] at hb
    unfold isWsChar at hb
    simp only [Bool.or_eq_true, decide_eq_true_eq] at hb
    rcases hb with ((h1 | h1) | h1) | h1 <;> (subst h1; exact absurd h (by decide))
  all_goals intro he; subst he; exact absurd h (by decide)

theorem natToChars_head (n : Nat) :
    ∃ c t, natToChars n = c :: t ∧ isDigit10 c = true := by
  cases h : natToChars n with
  | nil => exact absurd h (natToChars_ne_nil n)
  | cons c t => exact ⟨c, t, rfl, natToChars_all_digits n c (h ▸ List.mem_cons_self _ _)⟩

theorem intToChars_head (n : Int) :
    ∃ c t, intToChars n = c :: t ∧ (decide (c = '-') || isDigit10 c) = true
      ∧ isWsChar c = false ∧ c ≠ 'n' ∧ c ≠ 't' ∧ c ≠ 'f' ∧ c ≠ '"' ∧ c ≠ '['
      ∧ c ≠ '\x7b' := by
  unfold intToChars
  split
  · exact ⟨'-', natToChars n.natAbs, rfl, by decide, by decide, by decide, by decide,
      by decide, by decide, by decide, by decide⟩
  · obtain ⟨c, t, hct, hd⟩ := natToChars_head n.natAbs
    have hp := isDigit10_not_special hd
    exact ⟨c, t, hct, by simp [hd], hp.1, hp.2.1, hp.2.2.1, hp.2.2.2.1, hp.2.2.2.2.1,
      hp.2.2.2.2.2.1, hp.2.2.2.2.2.2.1⟩

theorem stringify_head_cons (ind : Nat) (v : Json) :
    ∃ c t, stringifyAt ind v = c :: t ∧ isWsChar c = false ∧ c ≠ ']' ∧ c ≠ '\x7d' := by
  have hgood : ∀ c ∈ ['n', 't', 'f', '"', '[', '\x7b'],
      isWsChar c = false ∧ c ≠ ']' ∧ c ≠ '\x7d' := by decide
  cases v with
  | null => exact ⟨'n', _, rfl, hgood 'n' (by decide)⟩
  | bool b =>
    cases b with
    | true => exact ⟨'t', _, rfl, hgood 't' (by decide)⟩
    | false => exact ⟨'f', _, rfl, hgood 'f' (by decide)⟩
  | num n =>
    obtain ⟨c, t, hct, hb, hws, -⟩ := intToChars_head n
    refine ⟨c, t, hct, hws, ?_, ?_⟩
    · intro he
      subst he
      simp only [Bool.or_eq_true, decide_eq_true_eq] at hb
      rcases hb with h | h
      · exact absurd h (by decide)
      · exact absurd h (by decide)
    · intro he
      subst he
      simp only [Bool.or_eq_true, decide_eq_true_eq] at hb
      rcases hb with h | h
      · exact absurd h (by decide)
      · exact absurd h (by decide)
  | str s => exact ⟨'"', _, rfl, hgood '"' (by decide)⟩
  | arr xs =>
    cases xs with
    | nil => exact ⟨'[', _, rfl, hgood '[' (by decide)⟩
    | cons x xs => exact ⟨'[', _, rfl, hgood '[' (by decide)⟩
  | obj fs =>
    cases fs with
    | nil => exact ⟨'\x7b', _, rfl, hgood '\x7b' (by decide)⟩
    | cons f fs => exact ⟨'\x7b', _, rfl, hgood '\x7b' (by decide)⟩

theorem headNotDigit_nlInd (ind : Nat) (X : List Char) :
    headNotDigit (nlInd ind ++ X) = true := by
  unfold nlInd
  rw [List.cons_append]
  rfl

/-! ## Lemmas: parser-step reductions and fuel bookkeeping -/

theorem parseVal_cons {s : List Char} {c : Char} {r : List Char} (f : Nat)
    (hs : skipWs s = c :: r) : parseVal (f + 1) s = parseCore f c r := by
  unfold parseVal
  rw [hs]

theorem parseItems_some {s : List Char} {v : Json} {rest : List Char} (f : Nat)
    (hv : parseVal f s = some (v, rest)) : parseItems (f + 1) s = itemsTail f v rest := by
  unfold parseItems
  rw [hv]

theorem parseFields_cons {s : List Char} {c : Char} {r : List Char} (f : Nat)
    (hs : skipWs s = c :: r) : parseFields (f + 1) s = fieldsCore f c r := by
  unfold parseFields
  rw [hs]

theorem fieldsCore_quote {r r2 k : List Char} (f : Nat)
    (hk : parseStr r = some (k, r2)) : fieldsCore f '"' r = fieldsColon f k r2 := by
  unfold fieldsCore
  rw [if_pos rfl, hk]

theorem fieldsColon_step {r2 r4 : List Char} {k : List Char} {v : Json} (f : Nat)
    (h1 : (skipWs r2).head? = some ':') (h2 : parseVal f (skipWs r2).tail = some (v, r4)) :
    fieldsColon f k r2 = fieldsTail f k v r4 := by
  unfold fieldsColon
  rw [if_pos h1, h2]

theorem needVal_pos (v : Json) : 1 ≤ needVal v := by
  cases v with
  | null => simp [needVal]
  | bool b => simp [needVal]
  | num n => simp [needVal]
  | str s => simp [needVal]
  | arr xs => cases xs <;> simp [needVal]
  | obj fs => cases fs <;> simp [needVal]

theorem needVal_arr_cons (x : Json) (xs : List Json) :
    needVal (Json.arr (x :: xs)) = 1 + needItems (x :: xs) := by
  unfold needVal
  rfl

theorem needVal_obj_cons (f : List Char × Json) (fs : List (List Char × Json)) :
    needVal (Json.obj (f :: fs)) = 1 + needFields (f :: fs) := by
  unfold needVal
  rfl

theorem needItems_cons (x : Json) (xs : List Json) :
    needItems (x :: xs) = 1 + max (needVal x) (needItems xs) := by
  conv_lhs => unfold needItems

theorem needFields_cons (f : List Char × Json) (fs : List (List Char × Json)) :
    needFields (f :: fs) = 1 + max (needVal f.2) (needFields fs) := by
  cases f with
  | mk k v =>
    conv_lhs => unfold needFields

/-! ## Lemmas: significant heads of serialized lists -/

theorem skipWs_items (ind : Nat) (x : Json) (xs : List Json) (X : List Char) :
    ∃ c t2, skipWs (stringifyItems ind (x :: xs) ++ X) = c :: t2 ∧ c ≠ ']' ∧ c ≠ '\x7d' := by
  obtain ⟨c, t, hct, hws, hcb, hcb2⟩ := stringify_head_cons (ind + 2) x
  cases xs with
  | nil =>
    refine ⟨c, t ++ X, ?_, hcb, hcb2⟩
    show skipWs ((nlInd (ind + 2) ++ stringifyAt (ind + 2) x) ++ X) = c :: (t ++ X)
    rw [List.append_assoc, skipWs_append (nlInd_all_ws _), hct, List.cons_append,
      skipWs_not_ws hws]
  | cons y ys =>
    refine ⟨c, t ++ ([','] ++ stringifyItems ind (y :: ys) ++ X), ?_, hcb, hcb2⟩
    show skipWs ((nlInd (ind + 2) ++ stringifyAt (ind + 2) x ++ [',']
      ++ stringifyItems ind (y :: ys)) ++ X) = c :: (t ++ ([','] ++ stringifyItems ind (y :: ys) ++ X))
    rw [show (nlInd (ind + 2) ++ stringifyAt (ind + 2) x ++ [','] ++ stringifyItems ind (y :: ys)) ++ X
        = nlInd (ind + 2) ++ (stringifyAt (ind + 2) x ++ ([','] ++ stringifyItems ind (y :: ys) ++ X)) by
      simp]
    rw [skipWs_append (nlInd_all_ws _), hct, List.cons_append, skipWs_not_ws hws]

theorem skipWs_fields (ind : Nat) (kv : List Char × Json) (fs : List (List Char × Json))
    (X : List Char) :
    ∃ t2, skipWs (stringifyFields ind (kv :: fs) ++ X) = '"' :: t2 := by
  obtain ⟨k, v⟩ := kv
  cases fs with
  | nil =>
    refine ⟨(escape k ++ ['"', ':', ' ']) ++ (stringifyAt (ind + 2) v ++ X), ?_⟩
    show skipWs ((nlInd (ind + 2) ++ ('"' :: (escape k ++ ['"', ':', ' ']))
      ++ stringifyAt (ind + 2) v) ++ X) = _
    rw [show (nlInd (ind + 2) ++ ('"' :: (escape k ++ ['"', ':', ' ']))
        ++ stringifyAt (ind + 2) v) ++ X
        = nlInd (ind + 2) ++ ('"' :: ((escape k ++ ['"', ':', ' '])
            ++ (stringifyAt (ind + 2) v ++ X))) by simp]
    rw [skipWs_append (nlInd_all_ws _), skipWs_not_ws (by decide)]
  | cons g gs =>
    refine ⟨(escape k ++ ['"', ':', ' ']) ++ (stringifyAt (ind + 2) v
      ++ ([','] ++ stringifyFields ind (g :: gs) ++ X)), ?_⟩
    show skipWs ((nlInd (ind + 2) ++ ('"' :: (escape k ++ ['"', ':', ' ']))
      ++ stringifyAt (ind + 2) v ++ [','] ++ stringifyFields ind (g :: gs)) ++ X) = _
    rw [show (nlInd (ind + 2) ++ ('"' :: (escape k ++ ['"', ':', ' ']))
        ++ stringifyAt (ind + 2) v ++ [','] ++ stringifyFields ind (g :: gs)) ++ X
        = nlInd (ind + 2) ++ ('"' :: ((escape k ++ ['"', ':', ' '])
            ++ (stringifyAt (ind + 2) v ++ ([','] ++ stringifyFields ind (g :: gs) ++ X)))) by
      simp]
    rw [skipWs_append (nlInd_all_ws _), skipWs_not_ws (by decide)]

/-! ## The serialization round trip -/

mutual

theorem parseVal_stringify : ∀ (v : Json) (ind f : Nat) (rest : List Char),
    needVal v ≤ f → headNotDigit rest = true →
    parseVal f (stringifyAt ind v ++ rest) = some (v, rest)
  | v, ind, 0, rest, hf, _ => absurd hf (by have := needVal_pos v; omega)
  | .null, ind, g + 1, rest, hf, hr => by
    have e : stringifyAt ind Json.null ++ rest = 'n' :: ("ull".toList ++ rest) := rfl
    rw [e, parseVal_cons g (skipWs_not_ws (by decide) _)]
    unfold parseCore
    rw [if_pos rfl, if_pos (isPrefixOf_append_self _ _)]
    rfl
  | .bool true, ind, g + 1, rest, hf, hr => by
    have e : stringifyAt ind (Json.bool true) ++ rest = 't' :: ("rue".toList ++ rest) := rfl
    rw [e, parseVal_cons g (skipWs_not_ws (by decide) _)]
    unfold parseCore
    rw [if_neg (by decide), if_pos rfl, if_pos (isPrefixOf_append_self _ _)]
    rfl
  | .bool false, ind, g + 1, rest, hf, hr => by
    have e : stringifyAt ind (Json.bool false) ++ rest = 'f' :: ("alse".toList ++ rest) := rfl
    rw [e, parseVal_cons g (skipWs_not_ws (by decide) _)]
    unfold parseCore
    rw [if_neg (by decide), if_neg (by decide), if_pos rfl,
      if_pos (isPrefixOf_append_self _ _)]
    rfl
  | .str s, ind, g + 1, rest, hf, hr => by
    have e : stringifyAt ind (Json.str s) ++ rest = '"' :: (escape s ++ '"' :: rest) := by
      show ('"' :: (escape s ++ ['"'])) ++ rest = _
      simp
    rw [e, parseVal_cons g (skipWs_not_ws (by decide) _)]
    unfold parseCore
    rw [if_neg (by decide), if_neg (by decide), if_neg (by decide), if_pos rfl,
      parseStr_escape]
    rfl
  | .num n, ind, g + 1, rest, hf, hr => by
    obtain ⟨c, t, hct, hb, hws, hn, ht, hf2, hq, hbr, hob⟩ := intToChars_head n
    have e : stringifyAt ind (Json.num n) ++ rest = c :: (t ++ rest) := by
      show intToChars n ++ rest = _
      rw [hct, List.cons_append]
    rw [e, parseVal_cons g (skipWs_not_ws hws _)]
    unfold parseCore
    rw [if_neg hn, if_neg ht, if_neg hf2, if_neg hq, if_neg hbr, if_neg hob, if_pos hb,
      ← List.cons_append, ← hct, parseNum_intToChars n hr]
    rfl
  | .arr [], ind, g + 1, rest, hf, hr => by
    have e : stringifyAt ind (Json.arr []) ++ rest = '[' :: (']' :: rest) := rfl
    rw [e, parseVal_cons g (skipWs_not_ws (by decide) _)]
    unfold parseCore
    rw [if_neg (by decide), if_neg (by decide), if_neg (by decide), if_neg (by decide),
      if_pos rfl, skipWs_not_ws (by decide)]
    rw [if_pos (by simp)]
    rfl
  | .arr (x :: xs), ind, g + 1, rest, hf, hr => by
    have e : stringifyAt ind (Json.arr (x :: xs)) ++ rest
        = '[' :: (stringifyItems ind (x :: xs) ++ (nlInd ind ++ ']' :: rest)) := by
      show ('[' :: (stringifyItems ind (x :: xs) ++ nlInd ind ++ [']'])) ++ rest = _
      simp
    rw [e, parseVal_cons g (skipWs_not_ws (by decide) _)]
    unfold parseCore
    rw [if_neg (by decide), if_neg (by decide), if_neg (by decide), if_neg (by decide),
      if_pos rfl]
    obtain ⟨c, t2, hskip, hcb, -⟩ := skipWs_items ind x xs (nlInd ind ++ ']' :: rest)
    rw [hskip, if_neg (by simp [hcb])]
    rw [parseItems_stringify (x :: xs) ind g rest (by simp)
      (by rw [needVal_arr_cons] at hf; omega)]
    rfl
  | .obj [], ind, g + 1, rest, hf, hr => by
    have e : stringifyAt ind (Json.obj []) ++ rest = '\x7b' :: ('\x7d' :: rest) := rfl
    rw [e, parseVal_cons g (skipWs_not_ws (by decide) _)]
    unfold parseCore
    rw [if_neg (by decide), if_neg (by decide), if_neg (by decide), if_neg (by decide),
      if_neg (by decide), if_pos rfl, skipWs_not_ws (by decide)]
    rw [if_pos (by simp)]
    rfl
  | .obj (kv :: fs), ind, g + 1, rest, hf, hr => by
    have e : stringifyAt ind (Json.obj (kv :: fs)) ++ rest
        = '\x7b' :: (stringifyFields ind (kv :: fs) ++ (nlInd ind ++ '\x7d' :: rest)) := by
      show ('\x7b' :: (stringifyFields ind (kv :: fs) ++ nlInd ind ++ ['\x7d'])) ++ rest = _
      simp
    rw [e, parseVal_cons g (skipWs_not_ws (by decide) _)]
    unfold parseCore
    rw [if_neg (by decide), if_neg (by decide), if_neg (by decide), if_neg (by decide),
      if_neg (by decide), if_pos rfl]
    obtain ⟨t2, hskip⟩ := skipWs_fields ind kv fs (nlInd ind ++ '\x7d' :: rest)
    rw [hskip, if_neg (by simp)]
    rw [parseFields_stringify (kv :: fs) ind g rest (by simp)
      (by rw [needVal_obj_cons] at hf; omega)]
    rfl

theorem parseItems_stringify : ∀ (xs : List Json) (ind f : Nat) (rest : List Char),
    xs ≠ [] → needItems xs ≤ f →
    parseItems f (stringifyItems ind xs ++ (nlInd ind ++ ']' :: rest)) = some (xs, rest)
  | [], _, _, _, hne, _ => absurd rfl hne
  | xs, ind, 0, rest, _, hf =>
    absurd hf (by cases xs with
      | nil => simp [needItems]
      | cons x xs => rw [needItems_cons]; omega)
  | [x], ind, g + 1, rest, _, hf => by
    have e : stringifyItems ind [x] ++ (nlInd ind ++ ']' :: rest)
        = nlInd (ind + 2) ++ (stringifyAt (ind + 2) x ++ (nlInd ind ++ ']' :: rest)) := by
      show (nlInd (ind + 2) ++ stringifyAt (ind + 2) x) ++ _ = _
      simp
    have hneed : needVal x ≤ g := by
      rw [needItems_cons] at hf
      omega
    have hv : parseVal g (nlInd (ind + 2)
        ++ (stringifyAt (ind + 2) x ++ (nlInd ind ++ ']' :: rest)))
        = some (x, nlInd ind ++ ']' :: rest) := by
      rw [parseVal_ws (nlInd_all_ws _)]
      exact parseVal_stringify x (ind + 2) g _ hneed (headNotDigit_nlInd _ _)
    rw [e, parseItems_some g hv]
    unfold itemsTail
    rw [skipWs_append (nlInd_all_ws _), skipWs_not_ws (by decide)]
    rw [if_neg (by simp), if_pos (by simp)]
    rfl
  | x :: y :: xs, ind, g + 1, rest, _, hf => by
    have e : stringifyItems ind (x :: y :: xs) ++ (nlInd ind ++ ']' :: rest)
        = nlInd (ind + 2) ++ (stringifyAt (ind + 2) x
            ++ (',' :: (stringifyItems ind (y :: xs) ++ (nlInd ind ++ ']' :: rest)))) := by
      show (nlInd (ind + 2) ++ stringifyAt (ind + 2) x ++ [',']
        ++ stringifyItems ind (y :: xs)) ++ _ = _
      simp
    have hneed : needVal x ≤ g ∧ needItems (y :: xs) ≤ g := by
      rw [needItems_cons] at hf
      omega
    have hv : parseVal g (nlInd (ind + 2) ++ (stringifyAt (ind + 2) x
        ++ (',' :: (stringifyItems ind (y :: xs) ++ (nlInd ind ++ ']' :: rest)))))
        = some (x, ',' :: (stringifyItems ind (y :: xs) ++ (nlInd ind ++ ']' :: rest))) := by
      rw [parseVal_ws (nlInd_all_ws _)]
      exact parseVal_stringify x (ind + 2) g _ hneed.1 rfl
    rw [e, parseItems_some g hv]
    unfold itemsTail
    rw [skipWs_not_ws (by decide)]
    rw [if_pos (by simp)]
    rw [show (',' :: (stringifyItems ind (y :: xs) ++ (nlInd ind ++ ']' :: rest))).tail
        = stringifyItems ind (y :: xs) ++ (nlInd ind ++ ']' :: rest) from rfl]
    rw [parseItems_stringify (y :: xs) ind g rest (by simp) hneed.2]
    rfl

theorem parseFields_stringify : ∀ (fs : List (List Char × Json)) (ind f : Nat)
    (rest : List Char), fs ≠ [] → needFields fs ≤ f →
    parseFields f (stringifyFields ind fs ++ (nlInd ind ++ '\x7d' :: rest)) = some (fs, rest)
  | [], _, _, _, hne, _ => absurd rfl hne
  | fs, ind, 0, rest, _, hf =>
    absurd hf (by cases fs with
      | nil => simp [needFields]
      | cons f fs => rw [needFields_cons]; omega)
  | [(k, v)], ind, g + 1, rest, _, hf => by
    have e : stringifyFields ind [(k, v)] ++ (nlInd ind ++ '\x7d' :: rest)
        = nlInd (ind + 2) ++ ('"' :: (escape k ++ ('"' :: ':' :: ' '
            :: (stringifyAt (ind + 2) v ++ (nlInd ind ++ '\x7d' :: rest))))) := by
      show (nlInd (ind + 2) ++ ('"' :: (escape k ++ ['"', ':', ' ']))
        ++ stringifyAt (ind + 2) v) ++ _ = _
      simp
    have hneed : needVal v ≤ g := by
      rw [needFields_cons] at hf
      simp at hf
      omega
    have hskip : skipWs (nlInd (ind + 2) ++ ('"' :: (escape k ++ ('"' :: ':' :: ' '
        :: (stringifyAt (ind + 2) v ++ (nlInd ind ++ '\x7d' :: rest))))))
        = '"' :: (escape k ++ ('"' :: ':' :: ' '
            :: (stringifyAt (ind + 2) v ++ (nlInd ind ++ '\x7d' :: rest)))) := by
      rw [skipWs_append (nlInd_all_ws _), skipWs_not_ws (by decide)]
    rw [e, parseFields_cons g hskip,
      fieldsCore_quote g (parseStr_escape k (':' :: ' '
        :: (stringifyAt (ind + 2) v ++ (nlInd ind ++ '\x7d' :: rest))))]
    have hsk2 : skipWs (':' :: ' ' :: (stringifyAt (ind + 2) v
        ++ (nlInd ind ++ '\x7d' :: rest)))
        = ':' :: ' ' :: (stringifyAt (ind + 2) v ++ (nlInd ind ++ '\x7d' :: rest)) :=
      skipWs_not_ws (by decide) _
    have hval : parseVal g (skipWs (':' :: ' ' :: (stringifyAt (ind + 2) v
        ++ (nlInd ind ++ '\x7d' :: rest)))).tail = some (v, nlInd ind ++ '\x7d' :: rest) := by
      rw [hsk2]
      show parseVal g ([' '] ++ (stringifyAt (ind + 2) v ++ (nlInd ind ++ '\x7d' :: rest)))
        = _
      rw [parseVal_ws (by intro c hc; simp at hc; subst hc; decide)]
      exact parseVal_stringify v (ind + 2) g _ hneed (headNotDigit_nlInd _ _)
    rw [fieldsColon_step g (by rw [hsk2]; rfl) hval]
    unfold fieldsTail
    rw [skipWs_append (nlInd_all_ws _), skipWs_not_ws (by decide)]
    rw [if_neg (by simp), if_pos (by simp)]
    rfl
  | (k, v) :: kv2 :: fs, ind, g + 1, rest, _, hf => by
    have e : stringifyFields ind ((k, v) :: kv2 :: fs) ++ (nlInd ind ++ '\x7d' :: rest)
        = nlInd (ind + 2) ++ ('"' :: (escape k ++ ('"' :: ':' :: ' '
            :: (stringifyAt (ind + 2) v ++ (',' :: (stringifyFields ind (kv2 :: fs)
              ++ (nlInd ind ++ '\x7d' :: rest))))))) := by
      show (nlInd (ind + 2) ++ ('"' :: (escape k ++ ['"', ':', ' ']))
        ++ stringifyAt (ind + 2) v ++ [','] ++ stringifyFields ind (kv2 :: fs)) ++ _ = _
      simp
    have hneed : needVal v ≤ g ∧ needFields (kv2 :: fs) ≤ g := by
      rw [needFields_cons] at hf
      simp at hf
      omega
    have hskip : skipWs (nlInd (ind + 2) ++ ('"' :: (escape k ++ ('"' :: ':' :: ' '
        :: (stringifyAt (ind + 2) v ++ (',' :: (stringifyFields ind (kv2 :: fs)
          ++ (nlInd ind ++ '\x7d' :: rest))))))))
        = '"' :: (escape k ++ ('"' :: ':' :: ' '
            :: (stringifyAt (ind + 2) v ++ (',' :: (stringifyFields ind (kv2 :: fs)
              ++ (nlInd ind ++ '\x7d' :: rest)))))) := by
      rw [skipWs_append (nlInd_all_ws _), skipWs_not_ws (by decide)]
    rw [e, parseFields_cons g hskip,
      fieldsCore_quote g (parseStr_escape k (':' :: ' '
        :: (stringifyAt (ind + 2) v ++ (',' :: (stringifyFields ind (kv2 :: fs)
          ++ (nlInd ind ++ '\x7d' :: rest))))))]
    have hsk2 : skipWs (':' :: ' ' :: (stringifyAt (ind + 2) v
        ++ (',' :: (stringifyFields ind (kv2 :: fs) ++ (nlInd ind ++ '\x7d' :: rest)))))
        = ':' :: ' ' :: (stringifyAt (ind + 2) v
            ++ (',' :: (stringifyFields ind (kv2 :: fs) ++ (nlInd ind ++ '\x7d' :: rest)))) :=
      skipWs_not_ws (by decide) _
    have hval : parseVal g (skipWs (':' :: ' ' :: (stringifyAt (ind + 2) v
        ++ (',' :: (stringifyFields ind (kv2 :: fs) ++ (nlInd ind ++ '\x7d' :: rest)))))).tail
        = some (v, ',' :: (stringifyFields ind (kv2 :: fs)
            ++ (nlInd ind ++ '\x7d' :: rest))) := by
      rw [hsk2]
      show parseVal g ([' '] ++ (stringifyAt (ind + 2) v ++ (',' :: (stringifyFields ind
        (kv2 :: fs) ++ (nlInd ind ++ '\x7d' :: rest))))) = _
      rw [parseVal_ws (by intro c hc; simp at hc; subst hc; decide)]
      exact parseVal_stringify v (ind + 2) g _ hneed.1 rfl
    rw [fieldsColon_step g (by rw [hsk2]; rfl) hval]
    unfold fieldsTail
    rw [skipWs_not_ws (by decide)]
    rw [if_pos (by simp)]
    rw [show (',' :: (stringifyFields ind (kv2 :: fs) ++ (nlInd ind ++ '\x7d' :: rest))).tail
        = stringifyFields ind (kv2 :: fs) ++ (nlInd ind ++ '\x7d' :: rest) from rfl]
    rw [parseFields_stringify (kv2 :: fs) ind g rest (by simp) hneed.2]
    rfl

end

mutual

theorem needVal_le_length : ∀ (v : Json) (ind : Nat),
    needVal v ≤ (stringifyAt ind v).length
  | .null, ind => by simp [needVal, stringifyAt]
  | .bool true, ind => by simp [needVal, stringifyAt]
  | .bool false, ind => by simp [needVal, stringifyAt]
  | .num n, ind => by
    show needVal (Json.num n) ≤ (intToChars n).length
    have h1 : needVal (Json.num n) = 1 := by simp [needVal]
    have h2 : intToChars n ≠ [] := by
      unfold intToChars
      split
      · simp
      · exact natToChars_ne_nil _
    have := List.length_pos.mpr h2
    omega
  | .str s, ind => by
    show needVal (Json.str s) ≤ ('"' :: (escape s ++ ['"'])).length
    have h1 : needVal (Json.str s) = 1 := by simp [needVal]
    simp [h1]
  | .arr [], ind => by simp [needVal, stringifyAt]
  | .arr (x :: xs), ind => by
    show needVal (Json.arr (x :: xs))
      ≤ ('[' :: (stringifyItems ind (x :: xs) ++ nlInd ind ++ [']'])).length
    rw [needVal_arr_cons]
    have h1 := needItems_le_length (x :: xs) ind
    have h2 : 1 ≤ (nlInd ind).length := by simp [nlInd]
    simp only [List.length_cons, List.length_append, List.length_singleton]
    omega
  | .obj [], ind => by simp [needVal, stringifyAt]
  | .obj (kv :: fs), ind => by
    show needVal (Json.obj (kv :: fs))
      ≤ ('\x7b' :: (stringifyFields ind (kv :: fs) ++ nlInd ind ++ ['\x7d'])).length
    rw [needVal_obj_cons]
    have h1 := needFields_le_length (kv :: fs) ind
    have h2 : 1 ≤ (nlInd ind).length := by simp [nlInd]
    simp only [List.length_cons, List.length_append, List.length_singleton]
    omega

theorem needItems_le_length : ∀ (xs : List Json) (ind : Nat),
    needItems xs ≤ (stringifyItems ind xs).length + 1
  | [], ind => by simp [needItems, stringifyItems]
  | [x], ind => by
    show needItems [x] ≤ (nlInd (ind + 2) ++ stringifyAt (ind + 2) x).length + 1
    rw [needItems_cons]
    have h1 := needVal_le_length x (ind + 2)
    have h2 : needItems ([] : List Json) = 1 := by simp [needItems]
    have h3 : 1 ≤ (nlInd (ind + 2)).length := by simp [nlInd]
    simp only [List.length_append, h2]
    omega
  | x :: y :: xs, ind => by
    show needItems (x :: y :: xs) ≤ (nlInd (ind + 2) ++ stringifyAt (ind + 2) x ++ [',']
      ++ stringifyItems ind (y :: xs)).length + 1
    rw [needItems_cons]
    have h1 := needVal_le_length x (ind + 2)
    have h2 := needItems_le_length (y :: xs) ind
    have h3 : 1 ≤ (nlInd (ind + 2)).length := by simp [nlInd]
    simp only [List.length_append, List.length_singleton]
    omega

theorem needFields_le_length : ∀ (fs : List (List Char × Json)) (ind : Nat),
    needFields fs ≤ (stringifyFields ind fs).length + 1
  | [], ind => by simp [needFields, stringifyFields]
  | [(k, v)], ind => by
    show needFields [(k, v)] ≤ (nlInd (ind + 2) ++ ('"' :: (escape k ++ ['"', ':', ' ']))
      ++ stringifyAt (ind + 2) v).length + 1
    rw [needFields_cons]
    have h1 := needVal_le_length v (ind + 2)
    have h2 : needFields ([] : List (List Char × Json)) = 1 := by simp [needFields]
    have h3 : 1 ≤ (nlInd (ind + 2)).length := by simp [nlInd]
    simp only [List.length_append, List.length_cons, h2]
    omega
  | (k, v) :: kv2 :: fs, ind => by
    show needFields ((k, v) :: kv2 :: fs)
      ≤ (nlInd (ind + 2) ++ ('"' :: (escape k ++ ['"', ':', ' ']))
          ++ stringifyAt (ind + 2) v ++ [','] ++ stringifyFields ind (kv2 :: fs)).length + 1
    rw [needFields_cons]
    have h1 := needVal_le_length v (ind + 2)
    have h2 := needFields_le_length (kv2 :: fs) ind
    have h3 : 1 ≤ (nlInd (ind + 2)).length := by simp [nlInd]
    simp only [List.length_append, List.length_cons, List.length_singleton]
    omega

end

/-- The round-trip law: the pretty-printed serialization of any payload
deserializes to exactly that payload. -/
theorem jsonParse_stringify (v : Json) (ind : Nat) :
    jsonParse (stringifyAt ind v) = some v := by
  unfold jsonParse
  have h := parseVal_stringify v ind ((stringifyAt ind v).length + 1) []
    (by have := needVal_le_length v ind; omega) rfl
  rw [List.append_nil] at h
  rw [h]
  simp [skipWs]

/-! ## Lemmas: the document patcher -/

theorem anchor_append_assignHead : assignHead = anchor ++ " = ".toList := rfl

theorem anchor_length : anchor.length = 14 := rfl

theorem assignHead_length : assignHead.length = 17 := rfl

theorem patchCore_eq (html A : List Char) {m rel relC : Nat}
    (h1 : firstOccur anchor html = some m)
    (h2 : firstOccur ['['] (html.drop m) = some rel)
    (h3 : scanClose (html.drop (m + rel)) 0 = some relC) :
    patchCore html A = .ok (html.take m ++ assignHead ++ A ++ [';']
      ++ html.drop (endPosOf html m rel relC)) := by
  unfold patchCore
  simp only [h1, h2, h3]

theorem patchCore_ok_inv {html A out : List Char} (h : patchCore html A = .ok out) :
    ∃ m rel relC, firstOccur anchor html = some m
      ∧ firstOccur ['['] (html.drop m) = some rel
      ∧ scanClose (html.drop (m + rel)) 0 = some relC
      ∧ out = html.take m ++ assignHead ++ A ++ [';']
          ++ html.drop (endPosOf html m rel relC) := by
  unfold patchCore at h
  split at h
  · exact absurd h (by simp)
  · rename_i m hm
    split at h
    · exact absurd h (by simp)
    · rename_i rel hrel
      split at h
      · exact absurd h (by simp)
      · rename_i relC hrc
        simp only [PatchOut.ok.injEq] at h
        exact ⟨m, rel, relC, hm, hrel, hrc, h.symm⟩

/-- The serialized payload array starts with its opening bracket. -/
theorem stringify_arr_head (ind : Nat) (P : List Json) :
    ∃ A', stringifyAt ind (Json.arr P) = '[' :: A' := by
  cases P with
  | nil => exact ⟨_, rfl⟩
  | cons x xs => exact ⟨_, rfl⟩

/-- The serialized payload array is its opening bracket, a balanced
interior, and its closing bracket. -/
theorem stringify_arr_shape (ind : Nat) {P : List Json}
    (hclean : cleanB (Json.arr P) = true) :
    ∃ mid, stringifyAt ind (Json.arr P) = '[' :: (mid ++ [']']) ∧ balanced mid := by
  cases P with
  | nil => exact ⟨[], rfl, balanced_nil⟩
  | cons x xs =>
    refine ⟨stringifyItems ind (x :: xs) ++ nlInd ind, ?_, ?_⟩
    · show '[' :: (stringifyItems ind (x :: xs) ++ nlInd ind ++ [']']) = _
      simp
    · exact balanced_append (stringifyItems_balanced (x :: xs) (cleanB_arr_mem hclean) ind)
        (balanced_no_brackets_list (nlInd_no_brackets ind).1 (nlInd_no_brackets ind).2)

theorem take_eq_of_take_eq {s₁ s₂ : List Char} {a b : Nat} (hab : a ≤ b)
    (h : s₁.take b = s₂.take b) : s₁.take a = s₂.take a := by
  have e : ∀ s : List Char, s.take a = (s.take b).take a := by
    intro s
    rw [List.take_take]
    congr 1
    omega
  rw [e s₁, e s₂, h]

/-- Re-patching an already-patched document with the same (bracket-clean)
payload reproduces it exactly. -/
theorem patch_idem_core {html out : List Char} {P : List Json}
    (hclean : cleanB (Json.arr P) = true)
    (hok : patchCore html (stringifyAt 0 (Json.arr P)) = .ok out) :
    patchCore out (stringifyAt 0 (Json.arr P)) = .ok out := by
  obtain ⟨m, rel, relC, hm, hrel, hrc, hout⟩ := patchCore_ok_inv hok
  set A := stringifyAt 0 (Json.arr P) with hA
  -- facts about the original marker
  have hmo := firstOccur_eq_some_iff.mp hm
  have hmlt : m < html.length := occursAt_lt_length (by decide) hmo.1
  have hmlen : (html.take m).length = m := by
    rw [List.length_take]
    omega
  -- the patched document, re-grouped around its structure
  obtain ⟨mid, hmid, hbal⟩ := stringify_arr_shape 0 hclean
  rw [← hA] at hmid
  have hAlen : A.length = mid.length + 2 := by
    rw [hmid]
    simp
  set suf := html.drop (endPosOf html m rel relC) with hsuf
  -- the first characters up to the end of the anchor agree with the original
  have htake : out.take (m + anchor.length) = html.take (m + anchor.length) := by
    rw [take_of_occursAt hmo.1, hout]
    rw [show html.take m ++ assignHead ++ A ++ [';'] ++ suf
      = html.take m ++ (assignHead ++ (A ++ [';'] ++ suf)) by simp]
    rw [show m + anchor.length = (html.take m).length + anchor.length by rw [hmlen]]
    rw [List.take_append]
    congr 1
  -- the anchor is re-found at the same index
  have hanchor : firstOccur anchor out = some m := by
    apply firstOccur_eq_some_iff.mpr
    constructor
    · show anchor.isPrefixOf (out.drop m) = true
      rw [hout, show html.take m ++ assignHead ++ A ++ [';'] ++ suf
        = html.take m ++ (assignHead ++ (A ++ [';'] ++ suf)) by simp,
        List.drop_left' hmlen, anchor_append_assignHead]
      rw [List.append_assoc]
      exact isPrefixOf_append_self _ _
    · intro j hj hj2
      apply hmo.2 j hj
      have hw : out.take (j + anchor.length) = html.take (j + anchor.length) :=
        @take_eq_of_take_eq out html (j + anchor.length) (m + anchor.length)
          (by omega) htake
      exact (occursAt_window hw).mp hj2
  -- the open bracket is re-found 17 characters later
  obtain ⟨A', hA'⟩ := stringify_arr_head 0 P
  rw [← hA] at hA'
  have hdrop_m : out.drop m = assignHead ++ ('[' :: (A' ++ (';' :: suf))) := by
    rw [hout, show html.take m ++ assignHead ++ A ++ [';'] ++ suf
      = html.take m ++ (assignHead ++ (A ++ (';' :: suf))) by simp,
      List.drop_left' hmlen, hA']
    simp
  have hopen : firstOccur ['['] (out.drop m) = some 17 := by
    rw [hdrop_m, firstOccur_single_append _ _ (by decide)]
    rw [assignHead_length]
  -- the scan lands on the structural close of the new literal
  have hdrop17 : out.drop (m + 17) = '[' :: (mid ++ (']' :: (';' :: suf))) := by
    rw [hout, show html.take m ++ assignHead ++ A ++ [';'] ++ suf
      = (html.take m ++ assignHead) ++ (A ++ (';' :: suf)) by simp]
    rw [List.drop_left' (by rw [List.length_append, hmlen, assignHead_length])]
    rw [hmid]
    simp
  have hscan : scanClose (out.drop (m + 17)) 0 = some (mid.length + 1) := by
    rw [hdrop17]
    exact scanClose_balanced hbal _
  -- the character after the close is the semicolon
  have hdropClose : out.drop (m + 17 + (mid.length + 1) + 1) = ';' :: suf := by
    rw [hout, show html.take m ++ assignHead ++ A ++ [';'] ++ suf
      = (html.take m ++ assignHead ++ A) ++ (';' :: suf) by simp]
    rw [List.drop_left' (by simp [hmlen, assignHead_length, hAlen]; omega)]
  have hend : endPosOf out m 17 (mid.length + 1) = m + 17 + (mid.length + 2) + 1 := by
    unfold endPosOf
    rw [hdropClose, List.head?_cons, if_pos rfl]
    omega
  -- the splice reproduces the document
  have e1 : out.take m = html.take m := by
    rw [hout, show html.take m ++ assignHead ++ A ++ [';'] ++ suf
      = html.take m ++ (assignHead ++ A ++ [';'] ++ suf) by simp]
    rw [List.take_left' hmlen]
  have e2 : out.drop (m + 17 + (mid.length + 2) + 1) = suf := by
    rw [hout, show html.take m ++ assignHead ++ A ++ [';'] ++ suf
      = (html.take m ++ assignHead ++ A ++ [';']) ++ suf by simp]
    rw [List.drop_left' (by simp [hmlen, assignHead_length, hAlen]; omega)]
  rw [patchCore_eq out A hanchor hopen hscan, hend, e1, e2, hout]

/-! ## Lemmas: the background-image substitution -/

theorem expandRepl_no_dollar {l : List Char} (h : '$' ∉ l) (m p q : List Char) :
    expandRepl m p q l = l := by
  induction l with
  | nil => rfl
  | cons c rest ih =>
    have hc : ¬ c = '$' := fun he => h (he ▸ List.mem_cons_self _ _)
    have hr : '$' ∉ rest := fun hm => h (List.mem_cons_of_mem _ hm)
    conv_lhs => unfold expandRepl
    rw [if_neg hc]
    rw [ih hr]

theorem dollar_not_in_bgRepl {bg : List Char} (h : '$' ∉ bg) : '$' ∉ bgRepl bg := by
  intro hm
  unfold bgRepl at hm
  rcases List.mem_append.mp hm with hm | hm
  · rcases List.mem_append.mp hm with hm | hm
    · exact absurd hm (by decide)
    · exact h hm
  · exact absurd hm (by decide)

theorem bgAux_nil (bg pre : List Char) : bgReplaceAux bg pre [] = [] := by
  unfold bgReplaceAux
  rfl

/-- A nonzero match requires the literal filename right after `url(` and
the optional quote. -/
theorem matchLen_fname {s : List Char} (h : matchLen s ≠ 0) :
    (bgFile.isPrefixOf (s.drop (4 + matchQuote (s.drop 4))) = true)
      ∧ matchQuote (s.drop 4) ≤ 1 := by
  have hq : matchQuote (s.drop 4) ≤ 1 := by
    unfold matchQuote
    split
    · omega
    · split <;> omega
  unfold matchLen at h
  split_ifs at h with h1 h2
  · rw [List.drop_drop] at h2
    exact ⟨h2, hq⟩
  · exact absurd rfl h
  · exact absurd rfl h

/-- The fully-quoted reference matches with length 21 wherever it occurs
at the head. -/
theorem matchLen_explicit (v : List Char) : matchLen (explicitPat ++ v) = 21 := by
  have e : explicitPat ++ v = urlOpen ++ ('\'' :: (bgFile ++ ('\'' :: ')' :: v))) := by
    unfold explicitPat
    simp
  rw [e]
  unfold matchLen
  rw [if_pos (isPrefixOf_append_self _ _)]
  rw [List.drop_left' (by decide)]
  have hq : matchQuote ('\'' :: (bgFile ++ ('\'' :: ')' :: v))) = 1 := rfl
  rw [hq]
  rw [show ('\'' :: (bgFile ++ ('\'' :: ')' :: v))).drop 1 = bgFile ++ ('\'' :: ')' :: v)
    from rfl]
  rw [if_pos (isPrefixOf_append_self _ _)]
  rw [List.drop_left' (by decide)]
  rfl

/-- Scanning through a segment in which no position matches leaves it
unchanged and continues on the remainder. -/
theorem bgAux_through (bg : List Char) : ∀ (u rest : List Char),
    (∀ j, j < u.length → matchLen ((u ++ rest).drop j) = 0) →
    ∀ pre, bgReplaceAux bg pre (u ++ rest) = u ++ bgReplaceAux bg (pre ++ u) rest := by
  intro u
  induction u with
  | nil =>
    intro rest _ pre
    simp
  | cons c u ih =>
    intro rest h pre
    rw [List.cons_append]
    conv_lhs => unfold bgReplaceAux
    have h0 : matchLen (c :: (u ++ rest)) = 0 := by
      have h00 := h 0 (by simp only [List.length_cons]; omega)
      simpa using h00
    rw [dif_pos h0]
    rw [ih rest (fun j hj => by
      have hjj := h (j + 1) (by simp only [List.length_cons]; omega)
      rwa [List.cons_append, List.drop_succ_cons] at hjj) (pre ++ [c])]
    simp

/-- The accumulated prefix (used only for `` $` `` expansion) is irrelevant
when the replacement value contains no `$`. -/
theorem bgAux_pre_irrel {bg : List Char} (hd : '$' ∉ bgRepl bg) :
    ∀ (n : Nat) (s : List Char), s.length = n →
    ∀ pre pre', bgReplaceAux bg pre s = bgReplaceAux bg pre' s := by
  intro n
  induction n using Nat.strong_induction_on with
  | _ n ihn =>
    intro s hn pre pre'
    cases s with
    | nil => rw [bgAux_nil, bgAux_nil]
    | cons c rest =>
      conv_lhs => unfold bgReplaceAux
      conv_rhs => unfold bgReplaceAux
      by_cases h0 : matchLen (c :: rest) = 0
      · rw [dif_pos h0, dif_pos h0]
        congr 1
        exact ihn rest.length (by rw [List.length_cons] at hn; omega) rest rfl _ _
      · rw [dif_neg h0, dif_neg h0]
        rw [expandRepl_no_dollar hd, expandRepl_no_dollar hd]
        congr 1
        have hlen : ((c :: rest).drop (matchLen (c :: rest))).length < n := by
          have hk := Nat.pos_of_ne_zero h0
          rw [List.length_drop, List.length_cons]
          rw [List.length_cons] at hn
          omega
        exact ihn _ hlen _ rfl _ _

/-- A document with no matching position anywhere is left unchanged. -/
theorem bgAux_id {s : List Char} (h : ∀ j, j < s.length → matchLen (s.drop j) = 0)
    (bg pre : List Char) : bgReplaceAux bg pre s = s := by
  have ht := bgAux_through bg s [] (by simpa using h) pre
  simpa [bgAux_nil] using ht

/-- Core of the corrected global-substitution behaviour: the text before
the (unique-filename) reference is kept, the reference is replaced, and
scanning continues over the tail — so every further match is replaced
too. -/
theorem bgReplace_core (u v bg : List Char) (hd : '$' ∉ bg)
    (huniq : ∀ k, k < (u ++ explicitPat ++ v).length →
      occursAt bgFile (u ++ explicitPat ++ v) k → k = u.length + 5) :
    bgReplace bg (u ++ explicitPat ++ v) = u ++ (bgRepl bg ++ bgReplace bg v) := by
  have hdr := dollar_not_in_bgRepl hd
  rw [show u ++ explicitPat ++ v = u ++ (explicitPat ++ v) by simp] at huniq ⊢
  have hnom : ∀ j, j < u.length → matchLen ((u ++ (explicitPat ++ v)).drop j) = 0 := by
    intro j hj
    by_contra hml
    obtain ⟨hpf, hq⟩ := matchLen_fname hml
    rw [List.drop_drop] at hpf
    have hocc : occursAt bgFile (u ++ (explicitPat ++ v))
        (j + (4 + matchQuote (((u ++ (explicitPat ++ v)).drop j).drop 4))) := hpf
    have hlt := occursAt_lt_length (by decide) hocc
    have hk := huniq _ hlt hocc
    omega
  unfold bgReplace
  rw [bgAux_through bg u (explicitPat ++ v) hnom []]
  congr 1
  have hml := matchLen_explicit v
  obtain ⟨c0, e0, he0⟩ : ∃ c0 e0, explicitPat ++ v = c0 :: e0 := ⟨'u', _, rfl⟩
  rw [he0]
  conv_lhs => unfold bgReplaceAux
  rw [dif_neg (by rw [← he0, hml]; omega)]
  rw [← he0, hml]
  rw [List.take_left' (by decide), List.drop_left' (by decide)]
  rw [expandRepl_no_dollar hdr]
  congr 1
  exact bgAux_pre_irrel hdr v.length v rfl _ _

/-- One replacement step at an arbitrary match (characterized by the
code's own matcher): text before the first match is kept, the match is
replaced, and the scan continues past it. -/
theorem bgReplace_split (u s bg : List Char) (hd : '$' ∉ bg)
    (hnom : ∀ j, j < u.length → matchLen ((u ++ s).drop j) = 0)
    (hml : matchLen s ≠ 0) :
    bgReplace bg (u ++ s) = u ++ (bgRepl bg ++ bgReplace bg (s.drop (matchLen s))) := by
  have hdr := dollar_not_in_bgRepl hd
  unfold bgReplace
  rw [bgAux_through bg u s hnom []]
  congr 1
  cases s with
  | nil => exact absurd rfl hml
  | cons c r =>
    conv_lhs => unfold bgReplaceAux
    rw [dif_neg hml]
    rw [expandRepl_no_dollar hdr]
    congr 1
    exact bgAux_pre_irrel hdr _ _ rfl _ _

/-- As `bgReplace_core`, but allowing further filename occurrences inside
the tail `v` (every occurrence lies at or beyond the explicit reference's
filename position). -/
theorem bgReplace_first (u v bg : List Char) (hd : '$' ∉ bg)
    (hfirst : ∀ k, k < (u ++ explicitPat ++ v).length →
      occursAt bgFile (u ++ explicitPat ++ v) k → u.length + 5 ≤ k) :
    bgReplace bg (u ++ explicitPat ++ v) = u ++ (bgRepl bg ++ bgReplace bg v) := by
  have hdr := dollar_not_in_bgRepl hd
  rw [show u ++ explicitPat ++ v = u ++ (explicitPat ++ v) by simp] at hfirst ⊢
  have hnom : ∀ j, j < u.length → matchLen ((u ++ (explicitPat ++ v)).drop j) = 0 := by
    intro j hj
    by_contra hml
    obtain ⟨hpf, hq⟩ := matchLen_fname hml
    rw [List.drop_drop] at hpf
    have hocc : occursAt bgFile (u ++ (explicitPat ++ v))
        (j + (4 + matchQuote (((u ++ (explicitPat ++ v)).drop j).drop 4))) := hpf
    have hlt := occursAt_lt_length (by decide) hocc
    have hk := hfirst _ hlt hocc
    omega
  unfold bgReplace
  rw [bgAux_through bg u (explicitPat ++ v) hnom []]
  congr 1
  have hml := matchLen_explicit v
  obtain ⟨c0, e0, he0⟩ : ∃ c0 e0, explicitPat ++ v = c0 :: e0 := ⟨'u', _, rfl⟩
  rw [he0]
  conv_lhs => unfold bgReplaceAux
  rw [dif_neg (by rw [← he0, hml]; omega)]
  rw [← he0, hml]
  rw [List.take_left' (by decide), List.drop_left' (by decide)]
  rw [expandRepl_no_dollar hdr]
  congr 1
  exact bgAux_pre_irrel hdr v.length v rfl _ _

/-- A document in which the original filename never occurs is left
untouched by the background substitution, whatever `bg` is. -/
theorem bgReplace_no_occur (s bg : List Char)
    (h : ∀ k, k < s.length → ¬ occursAt bgFile s k) : bgReplace bg s = s := by
  unfold bgReplace
  apply bgAux_id _ bg []
  intro j hj
  by_contra hml
  obtain ⟨hpf, hq⟩ := matchLen_fname hml
  rw [List.drop_drop] at hpf
  have hocc : occursAt bgFile s (j + (4 + matchQuote ((s.drop j).drop 4))) := hpf
  have hlt := occursAt_lt_length (by decide) hocc
  exact h _ hlt hocc

/-! ## The claims -/

/-- C1: a request whose body lacks the `projects` field does NOT leave the
document unchanged: the handler stringifies `undefined`, patches the
literal to the text `const PROJECTS = undefined;`, writes the file, and
only afterwards throws reading `projects.length`, answering 500 with the
document already overwritten. -/
theorem c1_missing_projects_still_writes :
    saveProjects (some ("const PROJECTS = [];".toList)) none ⟨none, none⟩
      = SaveResult.lengthThrow ("const PROJECTS = undefined;".toList)
    ∧ statusOf (saveProjects (some ("const PROJECTS = [];".toList)) none ⟨none, none⟩) = 500
    ∧ writtenOf (saveProjects (some ("const PROJECTS = [];".toList)) none ⟨none, none⟩)
        = some ("const PROJECTS = undefined;".toList)
    ∧ ("const PROJECTS = undefined;".toList : List Char) ≠ "const PROJECTS = [];".toList :=
  ⟨by decide, by decide, by decide, by decide⟩

/-- C2 (amended): the background substitution is global, not first-only.
In a document carrying two pattern occurrences (and no other occurrence
of the original filename), BOTH references are replaced; supplying no
`bg` leaves the document untouched. -/
theorem c2_bg_substitution_global (u w v bg : List Char) (hd : '$' ∉ bg)
    (h1 : ∀ k, k < (u ++ explicitPat ++ (w ++ explicitPat ++ v)).length →
      occursAt bgFile (u ++ explicitPat ++ (w ++ explicitPat ++ v)) k → u.length + 5 ≤ k)
    (h2 : ∀ k, k < (w ++ explicitPat ++ v).length →
      occursAt bgFile (w ++ explicitPat ++ v) k → w.length + 5 ≤ k)
    (h3 : ∀ k, k < v.length → ¬ occursAt bgFile v k) :
    bgReplace bg (u ++ explicitPat ++ (w ++ explicitPat ++ v))
      = u ++ (bgRepl bg ++ (w ++ (bgRepl bg ++ v)))
    ∧ applySettings ⟨none, none⟩ (u ++ explicitPat ++ (w ++ explicitPat ++ v))
      = u ++ explicitPat ++ (w ++ explicitPat ++ v) := by
  constructor
  · rw [bgReplace_first u (w ++ explicitPat ++ v) bg hd h1,
      bgReplace_first w v bg hd h2, bgReplace_no_occur v bg h3]
  · rfl

theorem c2_bg_substitution_global_witness :
    (('$' ∉ ("x.png".toList))
      ∧ (∀ k, k < (("a ".toList) ++ explicitPat
            ++ ((" ".toList) ++ explicitPat ++ (" b".toList))).length →
          occursAt bgFile (("a ".toList) ++ explicitPat
            ++ ((" ".toList) ++ explicitPat ++ (" b".toList))) k →
          ("a ".toList).length + 5 ≤ k)
      ∧ (∀ k, k < ((" ".toList) ++ explicitPat ++ (" b".toList)).length →
          occursAt bgFile ((" ".toList) ++ explicitPat ++ (" b".toList)) k →
          (" ".toList).length + 5 ≤ k)
      ∧ (∀ k, k < (" b".toList).length → ¬ occursAt bgFile (" b".toList) k))
    ∧ (bgReplace ("x.png".toList)
          (("a ".toList) ++ explicitPat ++ ((" ".toList) ++ explicitPat ++ (" b".toList)))
        = ("a ".toList) ++ (bgRepl ("x.png".toList)
            ++ ((" ".toList) ++ (bgRepl ("x.png".toList) ++ (" b".toList))))
      ∧ applySettings ⟨none, none⟩
          (("a ".toList) ++ explicitPat ++ ((" ".toList) ++ explicitPat ++ (" b".toList)))
        = ("a ".toList) ++ explicitPat ++ ((" ".toList) ++ explicitPat ++ (" b".toList))) :=
  ⟨⟨by decide, by decide, by decide, by decide⟩,
    c2_bg_substitution_global ("a ".toList) (" ".toList) (" b".toList) ("x.png".toList)
      (by decide) (by decide) (by decide) (by decide)⟩

/-- C2, counterexample to the frozen statement: a document holding two
matching references has BOTH replaced when `bg` is supplied, so the
second occurrence is not left untouched. -/
theorem c2_second_occurrence_also_replaced :
    applySettings ⟨some ("x.png".toList), none⟩ (explicitPat ++ (' ' :: explicitPat))
      = "url('x.png') url('x.png')".toList := by
  show bgReplace ("x.png".toList) (explicitPat ++ (' ' :: explicitPat)) = _
  have hd : '$' ∉ ("x.png".toList) := by decide
  have h1 := bgReplace_split [] (explicitPat ++ (' ' :: explicitPat)) ("x.png".toList) hd
    (by intro j hj; simp at hj) (by decide)
  rw [List.nil_append] at h1
  rw [show (explicitPat ++ (' ' :: explicitPat)).drop
      (matchLen (explicitPat ++ (' ' :: explicitPat))) = ' ' :: explicitPat by decide] at h1
  have h2 := bgReplace_split [' '] explicitPat ("x.png".toList) hd
    (by
      intro j hj
      have hj0 : j = 0 := by simp at hj; omega
      subst hj0
      decide)
    (by decide)
  simp only [List.singleton_append] at h2
  rw [show explicitPat.drop (matchLen explicitPat) = ([] : List Char) by decide] at h2
  have h0 : bgReplace ("x.png".toList) [] = [] := bgAux_nil _ _
  rw [h1, h2, h0]
  decide

/-- C3: the static resolver's confinement check is a raw string-prefix
test on the joined path, so a request resolving to a sibling directory
whose name extends the root's (here `/home/stan/siteevil`) passes the
check and is served, although it is not within the root. -/
theorem c3_sibling_directory_served :
    resolveStatic ("/home/stan/site".toList) ("/../siteevil/secret.txt".toList) (fun _ => true)
      = StaticResult.ok ("/home/stan/siteevil/secret.txt".toList)
          ("application/octet-stream".toList)
    ∧ isWithin ("/home/stan/site".toList) ("/home/stan/siteevil/secret.txt".toList) = false :=
  ⟨by decide, by decide⟩

/-- C4: the round-trip law. When the anchor, the opening bracket and the
balanced close are all found, the patch splices `const PROJECTS = `, the
serialized payload and `;` between the byte-identical prefix and suffix
of the document, and the embedded literal deserializes to exactly the
payload. -/
theorem c4_patch_round_trip (html : List Char) (P : List Json) (m rel relC : Nat)
    (h1 : firstOccur anchor html = some m)
    (h2 : firstOccur ['['] (html.drop m) = some rel)
    (h3 : scanClose (html.drop (m + rel)) 0 = some relC) :
    patchCore html (stringifyAt 0 (Json.arr P))
      = PatchOut.ok (html.take m ++ assignHead ++ stringifyAt 0 (Json.arr P) ++ [';']
          ++ html.drop (endPosOf html m rel relC))
    ∧ jsonParse (stringifyAt 0 (Json.arr P)) = some (Json.arr P) :=
  ⟨patchCore_eq html (stringifyAt 0 (Json.arr P)) h1 h2 h3, jsonParse_stringify (Json.arr P) 0⟩

theorem c4_patch_round_trip_witness :
    (firstOccur anchor ("const PROJECTS = [];".toList) = some 0
      ∧ firstOccur ['['] (("const PROJECTS = [];".toList).drop 0) = some 17
      ∧ scanClose (("const PROJECTS = [];".toList).drop (0 + 17)) 0 = some 1)
    ∧ (patchCore ("const PROJECTS = [];".toList) (stringifyAt 0 (Json.arr []))
        = PatchOut.ok (("const PROJECTS = [];".toList).take 0 ++ assignHead
            ++ stringifyAt 0 (Json.arr []) ++ [';']
            ++ ("const PROJECTS = [];".toList).drop
                (endPosOf ("const PROJECTS = [];".toList) 0 17 1))
      ∧ jsonParse (stringifyAt 0 (Json.arr [])) = some (Json.arr [])) :=
  ⟨⟨by decide, by decide, by decide⟩,
    c4_patch_round_trip ("const PROJECTS = [];".toList) [] 0 17 1
      (by decide) (by decide) (by decide)⟩

/-- C5 (amended): patch-then-patch with the same payload is idempotent
for bracket-clean payloads (no `[` or `]` inside string values or keys);
a payload string containing a bracket desynchronizes the second scan. -/
theorem c5_patch_idem_clean (html out : List Char) (P : List Json)
    (hclean : cleanB (Json.arr P) = true)
    (hok : patchCore html (stringifyAt 0 (Json.arr P)) = PatchOut.ok out) :
    patchCore out (stringifyAt 0 (Json.arr P)) = PatchOut.ok out :=
  patch_idem_core hclean hok

theorem c5_patch_idem_clean_witness :
    (cleanB (Json.arr [Json.num 1]) = true
      ∧ patchCore ("const PROJECTS = [];".toList) (stringifyAt 0 (Json.arr [Json.num 1]))
          = PatchOut.ok ("const PROJECTS = [\n  1\n];".toList))
    ∧ patchCore ("const PROJECTS = [\n  1\n];".toList) (stringifyAt 0 (Json.arr [Json.num 1]))
        = PatchOut.ok ("const PROJECTS = [\n  1\n];".toList) :=
  ⟨⟨by decide, by decide⟩,
    c5_patch_idem_clean ("const PROJECTS = [];".toList) ("const PROJECTS = [\n  1\n];".toList)
      [Json.num 1] (by decide) (by decide)⟩

/-- C5, counterexample to the frozen statement: the payload whose single
record is the string `]` patches once to a well-formed document, but the
second patch stops the bracket scan at the `]` inside the string literal
and leaves trailing garbage, so patch-then-patch is not idempotent. -/
theorem c5_idempotence_fails_on_bracket_string :
    patchCore ("const PROJECTS = [];".toList) (stringifyAt 0 (Json.arr [Json.str [']']]))
      = PatchOut.ok ("const PROJECTS = [\n  \"]\"\n];".toList)
    ∧ patchCore ("const PROJECTS = [\n  \"]\"\n];".toList)
        (stringifyAt 0 (Json.arr [Json.str [']']]))
      = PatchOut.ok ("const PROJECTS = [\n  \"]\"\n];\"\n];".toList)
    ∧ ("const PROJECTS = [\n  \"]\"\n];\"\n];".toList : List Char)
        ≠ "const PROJECTS = [\n  \"]\"\n];".toList :=
  ⟨by decide, by decide, by decide⟩

/-- C6 (amended): the depth-counting scan finds the structural close of
the serialized literal for bracket-clean payloads (their interiors are
balanced, nesting included), and a document whose brackets never return
the depth to zero makes the patch fail with the unbalanced error. -/
theorem c6_scan_close (ind : Nat) (P : List Json) (rest : List Char)
    (hclean : cleanB (Json.arr P) = true)
    (html A : List Char) (m rel : Nat)
    (h1 : firstOccur anchor html = some m)
    (h2 : firstOccur ['['] (html.drop m) = some rel)
    (h3 : scanClose (html.drop (m + rel)) 0 = none) :
    (∃ mid, stringifyAt ind (Json.arr P) = '[' :: (mid ++ [']'])
      ∧ scanClose ('[' :: (mid ++ (']' :: rest))) 0 = some (mid.length + 1))
    ∧ patchCore html A = PatchOut.unbalanced := by
  constructor
  · obtain ⟨mid, hs, hb⟩ := stringify_arr_shape ind hclean
    exact ⟨mid, hs, scanClose_balanced hb rest⟩
  · unfold patchCore
    simp only [h1, h2, h3]

theorem c6_scan_close_witness :
    (cleanB (Json.arr [Json.num 1]) = true
      ∧ firstOccur anchor ("const PROJECTS = [".toList) = some 0
      ∧ firstOccur ['['] (("const PROJECTS = [".toList).drop 0) = some 17
      ∧ scanClose (("const PROJECTS = [".toList).drop (0 + 17)) 0 = none)
    ∧ ((∃ mid, stringifyAt 0 (Json.arr [Json.num 1]) = '[' :: (mid ++ [']'])
        ∧ scanClose ('[' :: (mid ++ (']' :: [';']))) 0 = some (mid.length + 1))
      ∧ patchCore ("const PROJECTS = [".toList) [] = PatchOut.unbalanced) :=
  ⟨⟨by decide, by decide, by decide, by decide⟩,
    c6_scan_close 0 [Json.num 1] [';'] (by decide) ("const PROJECTS = [".toList) [] 0 17
      (by decide) (by decide) (by decide)⟩

/-- C6, counterexample to the frozen statement: the scan does count
bracket characters inside strings. The serialized literal of the payload
whose single record is the string `]` is 9 characters long with its
structural close last, yet the scan reports the close at offset 5 -- the
`]` inside the string literal. -/
theorem c6_scan_counts_string_brackets :
    jsonParse (stringifyAt 0 (Json.arr [Json.str [']']])) = some (Json.arr [Json.str [']']])
    ∧ scanClose (stringifyAt 0 (Json.arr [Json.str [']']])) 0 = some 5
    ∧ (stringifyAt 0 (Json.arr [Json.str [']']])).length = 9 :=
  ⟨jsonParse_stringify (Json.arr [Json.str [']']]) 0, by decide, by decide⟩

/-- C7: when the anchor text occurs nowhere in the document, the handler
answers the marker-not-found error with status 400 and writes nothing. -/
theorem c7_marker_absent_no_write (html : List Char) (P : List Json) (st : Settings)
    (h : ∀ j, j < html.length → ¬ occursAt anchor html j) :
    saveProjects (some html) (some P) st = SaveResult.markerNotFound
    ∧ writtenOf (saveProjects (some html) (some P) st) = none
    ∧ statusOf (saveProjects (some html) (some P) st) = 400 := by
  have hfo : firstOccur anchor html = none := by
    cases hf : firstOccur anchor html with
    | none => rfl
    | some i =>
      have hi := (firstOccur_eq_some_iff.mp hf).1
      exact absurd hi (h i (occursAt_lt_length (by decide) hi))
  have hp : patchCore html (newArrayOf (some P)) = PatchOut.markerNotFound := by
    unfold patchCore
    simp only [hfo]
  have hs : saveProjects (some html) (some P) st = SaveResult.markerNotFound := by
    show finishSave (some P) st (patchCore html (newArrayOf (some P))) = _
    rw [hp]
    rfl
  exact ⟨hs, by rw [hs]; rfl, by rw [hs]; rfl⟩

theorem c7_marker_absent_no_write_witness :
    (∀ j, j < ("hello".toList).length → ¬ occursAt anchor ("hello".toList) j)
    ∧ (saveProjects (some ("hello".toList)) (some []) ⟨none, none⟩
        = SaveResult.markerNotFound
      ∧ writtenOf (saveProjects (some ("hello".toList)) (some []) ⟨none, none⟩) = none
      ∧ statusOf (saveProjects (some ("hello".toList)) (some []) ⟨none, none⟩) = 400) :=
  ⟨by decide, c7_marker_absent_no_write ("hello".toList) [] ⟨none, none⟩ (by decide)⟩

/-- C8: a successful save writes the patched text (settings applied) and
answers ok with the payload's record count and status 200. -/
theorem c8_success_overwrites_and_counts (html out : List Char) (P : List Json) (st : Settings)
    (hok : patchCore html (stringifyAt 0 (Json.arr P)) = PatchOut.ok out) :
    saveProjects (some html) (some P) st = SaveResult.success (applySettings st out) P.length
    ∧ okOf (saveProjects (some html) (some P) st) = true
    ∧ countOf (saveProjects (some html) (some P) st) = some P.length
    ∧ statusOf (saveProjects (some html) (some P) st) = 200
    ∧ writtenOf (saveProjects (some html) (some P) st) = some (applySettings st out) := by
  have hs : saveProjects (some html) (some P) st
      = SaveResult.success (applySettings st out) P.length := by
    show finishSave (some P) st (patchCore html (stringifyAt 0 (Json.arr P))) = _
    rw [hok]
    rfl
  exact ⟨hs, by rw [hs]; rfl, by rw [hs]; rfl, by rw [hs]; rfl, by rw [hs]; rfl⟩

theorem c8_success_overwrites_and_counts_witness :
    patchCore ("const PROJECTS = [\x7b\"a\":1\x7d];".toList)
        (stringifyAt 0 (Json.arr [Json.obj [("a".toList, Json.num 2)],
          Json.obj [("b".toList, Json.num 3)]]))
      = PatchOut.ok
          ("const PROJECTS = [\n  \x7b\n    \"a\": 2\n  \x7d,\n  \x7b\n    \"b\": 3\n  \x7d\n];".toList)
    ∧ saveProjects (some ("const PROJECTS = [\x7b\"a\":1\x7d];".toList))
        (some [Json.obj [("a".toList, Json.num 2)], Json.obj [("b".toList, Json.num 3)]])
        ⟨none, none⟩
      = SaveResult.success
          (applySettings ⟨none, none⟩
            ("const PROJECTS = [\n  \x7b\n    \"a\": 2\n  \x7d,\n  \x7b\n    \"b\": 3\n  \x7d\n];".toList))
          ([Json.obj [("a".toList, Json.num 2)], Json.obj [("b".toList, Json.num 3)]].length)
    ∧ countOf (saveProjects (some ("const PROJECTS = [\x7b\"a\":1\x7d];".toList))
        (some [Json.obj [("a".toList, Json.num 2)], Json.obj [("b".toList, Json.num 3)]])
        ⟨none, none⟩)
      = some ([Json.obj [("a".toList, Json.num 2)], Json.obj [("b".toList, Json.num 3)]].length) :=
  ⟨by decide,
    (c8_success_overwrites_and_counts ("const PROJECTS = [\x7b\"a\":1\x7d];".toList)
      ("const PROJECTS = [\n  \x7b\n    \"a\": 2\n  \x7d,\n  \x7b\n    \"b\": 3\n  \x7d\n];".toList)
      [Json.obj [("a".toList, Json.num 2)], Json.obj [("b".toList, Json.num 3)]]
      ⟨none, none⟩ (by decide)).1,
    (c8_success_overwrites_and_counts ("const PROJECTS = [\x7b\"a\":1\x7d];".toList)
      ("const PROJECTS = [\n  \x7b\n    \"a\": 2\n  \x7d,\n  \x7b\n    \"b\": 3\n  \x7d\n];".toList)
      [Json.obj [("a".toList, Json.num 2)], Json.obj [("b".toList, Json.num 3)]]
      ⟨none, none⟩ (by decide)).2.2.1⟩

/-- C9: an empty-string `bg` or `title` is falsy, so it is treated
exactly like an absent setting: the document passes through the
substitutions unchanged. -/
theorem c9_empty_settings_noop (doc : List Char) :
    applySettings ⟨some [], some []⟩ doc = doc
    ∧ applySettings ⟨some [], none⟩ doc = doc
    ∧ applySettings ⟨none, some []⟩ doc = doc
    ∧ applySettings ⟨none, none⟩ doc = doc :=
  ⟨rfl, rfl, rfl, rfl⟩

/-- C10 (amended): a document in which the original filename
`Desk_Image.png` never occurs is left unchanged by the background
substitution, whatever `bg` value is supplied. (The frozen claim's
consequence that every later substitution is a no-op fails when the
replacement value itself reintroduces the filename.) -/
theorem c10_no_filename_no_change (s bg : List Char)
    (h : ∀ k, k < s.length → ¬ occursAt bgFile s k) :
    applySettings ⟨some bg, none⟩ s = s ∧ bgReplace bg s = s := by
  have hb := bgReplace_no_occur s bg h
  constructor
  · show (if bg.isEmpty then s else bgReplace bg s) = s
    split
    · rfl
    · exact hb
  · exact hb

theorem c10_no_filename_no_change_witness :
    (∀ k, k < ("url('photo.png')".toList).length
      → ¬ occursAt bgFile ("url('photo.png')".toList) k)
    ∧ (applySettings ⟨some ("x".toList), none⟩ ("url('photo.png')".toList)
        = "url('photo.png')".toList
      ∧ bgReplace ("x".toList) ("url('photo.png')".toList) = "url('photo.png')".toList) :=
  ⟨by decide,
    c10_no_filename_no_change ("url('photo.png')".toList) ("x".toList) (by decide)⟩

/-- C10, counterexample to the frozen statement: replacing with the value
`Desk_Image.png)` succeeds once but writes a reference that matches the
pattern again, so the next substitution (with `b.png`) changes the
document instead of being a no-op. -/
theorem c10_replacement_reintroduces_match :
    bgReplace ("Desk_Image.png)".toList) explicitPat = "url('Desk_Image.png)')".toList
    ∧ bgReplace ("b.png".toList) ("url('Desk_Image.png)')".toList) = "url('b.png')')".toList
    ∧ ("url('b.png')')".toList : List Char) ≠ "url('Desk_Image.png)')".toList := by
  refine ⟨?_, ?_, by decide⟩
  · have hd : '$' ∉ ("Desk_Image.png)".toList) := by decide
    have h1 := bgReplace_split [] explicitPat ("Desk_Image.png)".toList) hd
      (by intro j hj; simp at hj) (by decide)
    rw [List.nil_append] at h1
    rw [show explicitPat.drop (matchLen explicitPat) = ([] : List Char) by decide] at h1
    have h0 : bgReplace ("Desk_Image.png)".toList) [] = [] := bgAux_nil _ _
    rw [h1, h0]
    decide
  · have hd : '$' ∉ ("b.png".toList) := by decide
    have h1 := bgReplace_split [] ("url('Desk_Image.png)')".toList) ("b.png".toList) hd
      (by intro j hj; simp at hj) (by decide)
    rw [List.nil_append] at h1
    rw [show ("url('Desk_Image.png)')".toList).drop
        (matchLen ("url('Desk_Image.png)')".toList)) = "')".toList by decide] at h1
    have h2 := bgReplace_no_occur ("')".toList) ("b.png".toList) (by decide)
    rw [h1, h2]
    decide

end StansWorld
